import Mathlib

/-!
Shallow embedding of the timetable constraint-satisfaction engine of the
repository `timetable-generator-hackHeritage`.

The repository has two engine implementations:
* `src/app2.py` — `get_time_slots` / `generate_timetable`, a CSP over the
  ordered slot sequence where every slot is a variable whose domain is the
  list of subject names, with whole-assignment constraint predicates
  (`every_subject_constraint`, `multi_slot_constraint`,
  `teacher_availability_constraint`, `user_consecutive_pair_constraint`,
  `user_non_consecutive_pair_constraint`), solved by the external
  `python-constraint` backtracking solver (`problem.getSolution()`).
* `src/app3.py` — `get_time_slots` / `generate_timetable_ortools`, an
  OR-Tools CP-SAT model with one interval per lecture occurrence,
  per-occurrence allowed start domains, a global no-overlap constraint and
  boolean-encoded adjacency constraints, solved by the external CP-SAT
  solver.

The external solvers are modelled semantically: a success response exists
exactly for assignments satisfying the registered constraints (that is the
documented contract of both libraries), so theorems about "any success
response" quantify over assignments satisfying the embedded constraint
predicates, and the deterministic complete solver `app2Run` (first
satisfying assignment in a fixed enumeration order) is used where a single
concrete engine result is needed.

Days are modelled by the seven-valued `Day` type: the UI (the only caller)
only ever supplies the seven standard day names, and the Python response
builder would raise `KeyError` for any other day string.  Python `dict`s
keyed by subject/day names are modelled as insertion-ordered association
lists (`dinsert` / `dlookup`): assigning to an existing key overwrites the
value in place, a new key is appended — exactly the Python `dict`
semantics.  Slot-name-keyed lookups (`slot_time[slot_name]`,
`slot_to_day[slot_name]` in app2) are modelled positionally via the slot
record list: slot names `abbrev + str(j+1)` are distinct across the slots
generated from the day dictionaries (day keys are distinct and the seven
abbreviations are prefix-free against digit suffixes), so the dict lookup
returns precisely the generating slot's own hour and day.
-/

/-- The seven week days of the UI request space. -/
inductive Day where
  | monday | tuesday | wednesday | thursday | friday | saturday | sunday
deriving DecidableEq, Fintype, Repr

/-- Lowercase day name, as produced by `day.lower()` in both engines. -/
def Day.lower : Day → String
  | .monday => "monday"
  | .tuesday => "tuesday"
  | .wednesday => "wednesday"
  | .thursday => "thursday"
  | .friday => "friday"
  | .saturday => "saturday"
  | .sunday => "sunday"

/-- The `day_abbreviations` dictionary of both `get_time_slots` variants. -/
def Day.abbr : Day → String
  | .monday => "M"
  | .tuesday => "T"
  | .wednesday => "W"
  | .thursday => "Th"
  | .friday => "F"
  | .saturday => "Sa"
  | .sunday => "Su"

/-- One `working_days` record: `{day, start_hr, total_hours}` (the UI also
stores an `end_hr` the engines never read). -/
structure WorkingDay where
  day : Day
  start_hr : Nat
  total_hours : Nat
deriving DecidableEq, Repr

/-- One `courses` record as read by the engines:
`name, lectureno, duration, start_hr, end_hr`. -/
structure Course where
  cname : String
  lectureno : Nat
  duration : Nat
  start_hr : Nat
  end_hr : Nat
deriving DecidableEq, Repr

/-- One generated slot: its id string, its day and its starting hour.  In
the source these are spread over `slot_names`, `slot_to_day` and
`slot_time`. -/
structure Slot where
  sname : String
  day : Day
  hour : Nat
deriving DecidableEq, Repr

instance : Inhabited Slot := ⟨⟨"", .monday, 0⟩⟩

/-- The per-subject record of `subject_info` in app2:
`start_hr`, `end_hr`, `duration`. -/
structure SubjInfo where
  start_hr : Nat
  end_hr : Nat
  duration : Nat
deriving DecidableEq, Repr

/-- A subject record of app3's `subjects` list:
`name, lectures, duration, start_hr, end_hr`. -/
structure Subj where
  sname : String
  lectures : Nat
  duration : Nat
  start_hr : Nat
  end_hr : Nat
deriving DecidableEq, Repr

/-! ### Decimal rendering of naturals

Python renders `f"{j+1}"` and `f"Free_{cnt}"` with decimal numerals; this
is the corresponding Lean definition (fuel-structured so that it reduces
definitionally; fuel `n+1` always suffices). -/

/-- The character of a single decimal digit. -/
def digitChar10 : Nat → Char
  | 0 => '0' | 1 => '1' | 2 => '2' | 3 => '3' | 4 => '4'
  | 5 => '5' | 6 => '6' | 7 => '7' | 8 => '8' | _ => '9'

/-- Decimal digit characters of `n`, most significant first (fuel version). -/
def natDecimalAux : Nat → Nat → List Char
  | 0, _ => []
  | fuel + 1, n =>
    if n < 10 then [digitChar10 n]
    else natDecimalAux fuel (n / 10) ++ [digitChar10 (n % 10)]

/-- Decimal numeral string of `n`, as Python's `str(n)` renders it. -/
def natDecimal (n : Nat) : String := ⟨natDecimalAux (n + 1) n⟩

/-- Two-digit hour rendering `f"{h:02d}"` of the response builders. -/
def fmt2 (h : Nat) : String :=
  if h < 10 then "0" ++ natDecimal h else natDecimal h

/-- `f"{h:02d}:00"`, the `start_time` / `end_time` rendering. -/
def fmtTime (h : Nat) : String := fmt2 h ++ ":00"

/-! ### Python dict as insertion-ordered association list -/

/-- Python `d[k] = v`: overwrite in place if the key exists, else append. -/
def dinsert {α β : Type} [DecidableEq α] (k : α) (v : β)
    (m : List (α × β)) : List (α × β) :=
  if m.any (fun p => p.1 = k) then
    m.map (fun p => if p.1 = k then (k, v) else p)
  else m ++ [(k, v)]

/-- Python `d[k]` (as an `Option`; the engines only look up present keys). -/
def dlookup {α β : Type} [DecidableEq α] (k : α)
    (m : List (α × β)) : Option β :=
  (m.find? (fun p => p.1 = k)).map (fun p => p.2)

/-- Key list of a dict, in insertion order (Python `d.keys()`). -/
def dkeys {α β : Type} (m : List (α × β)) : List α := m.map (fun p => p.1)

/-! ### Slot builders (`get_time_slots` of app2 and of app3) -/

/-- The per-day hour sequence of app2's `get_time_slots`: assign the
current hour, then add 2 if the hour just assigned was 12, else add 1.
So hour 12 IS assigned when reached, and 13 is skipped. -/
def hoursFrom2 : Nat → Nat → List Nat
  | _, 0 => []
  | s, n + 1 => s :: hoursFrom2 (if s = 12 then s + 2 else s + 1) n

/-- The per-day hour sequence of app3's `get_time_slots`: first skip past
12 (`while start == 12: start += 1`), then assign, then add 1.  So hour 12
is never assigned. -/
def hoursFrom3 : Nat → Nat → List Nat
  | _, 0 => []
  | s, n + 1 =>
    (if s = 12 then s + 1 else s) :: hoursFrom3 ((if s = 12 then s + 1 else s) + 1) n

/-- Slot records of one day: names `abbrev + str(j+1)` with `j` counting
from 0 within the day, paired with the day's hour sequence. -/
def mkSlots (d : Day) (hours : List Nat) : List Slot :=
  hours.enum.map (fun p => ⟨d.abbr ++ natDecimal (p.1 + 1), d, p.2⟩)

/-- app2's `get_time_slots`, given the items of the `slot_dict` /
`start_times` dictionaries: each item is `(day, total_hours, start_hr)`. -/
def get_time_slots2 (items : List (Day × Nat × Nat)) : List Slot :=
  items.flatMap (fun it => mkSlots it.1 (hoursFrom2 it.2.2 it.2.1))

/-- app3's `get_time_slots`, same interface, lunch-skip variant. -/
def get_time_slots3 (items : List (Day × Nat × Nat)) : List Slot :=
  items.flatMap (fun it => mkSlots it.1 (hoursFrom3 it.2.2 it.2.1))

/-- The `slot_counts_by_day` / `start_times` dictionaries that both
`generate_timetable` variants build from the `working_days` list (merged
into one dict of pairs `(total_hours, start_hr)`, built with the same keys
in the same order). -/
def buildDayItems (wds : List WorkingDay) : List (Day × Nat × Nat) :=
  wds.foldl (fun m w => dinsert w.day (w.total_hours, w.start_hr) m) []

/-! ### Demand normalisation (app2) -/

/-- app2's `subject_required_slots` dict: `name -> lectureno * duration`,
later courses with the same name overwriting earlier ones. -/
def requiredMap (courses : List Course) : List (String × Nat) :=
  courses.foldl (fun m c => dinsert c.cname (c.lectureno * c.duration) m) []

/-- app2's `subject_info` dict. -/
def infoMap (courses : List Course) : List (String × SubjInfo) :=
  courses.foldl
    (fun m c => dinsert c.cname ⟨c.start_hr, c.end_hr, c.duration⟩ m) []

/-- app2's `multi_slot_subjects` dict: only courses with `duration > 1`
are inserted (a later duplicate with `duration <= 1` does NOT remove an
earlier entry). -/
def multiMap (courses : List Course) : List (String × Nat) :=
  courses.foldl
    (fun m c => if 1 < c.duration then dinsert c.cname c.duration m else m) []

/-- `sum(subject_required_slots.values())`. -/
def totalRequired (courses : List Course) : Nat :=
  ((requiredMap courses).map (fun p => p.2)).sum

/-! ### The Free pseudo-subject name (both engines)

`free_name = "Free"; cnt = 1; while free_name in <existing names>:
free_name = f"Free_{cnt}"; cnt += 1`.  Modelled with explicit fuel; fuel
`len(names) + 2` always suffices because the candidates are pairwise
distinct strings (proved below). -/

/-- The candidate `f"Free_{cnt}"`. -/
def candFree (k : Nat) : String := "Free_" ++ natDecimal k

/-- The disambiguation loop. -/
def freeLoop (names : List String) : String → Nat → Nat → String
  | cur, _, 0 => cur
  | cur, cnt, fuel + 1 =>
    if cur ∈ names then freeLoop names (candFree cnt) (cnt + 1) fuel else cur

/-- The chosen Free-subject name, given the existing subject names. -/
def freeName (names : List String) : String :=
  freeLoop names "Free" 1 (names.length + 2)

/-! ### app2 constraint predicates

Each is the Lean rendering of the identically-named closure in
`generate_timetable` (src/app2.py); `vals` is the tuple
`timetable_values`, i.e. the assigned subject names in slot order.  The
source's dict lookups `slot_time[time_slots[i]]` / `slot_index_to_day[i]`
are rendered positionally through the slot record list (slot names are
unique, see the header comment). -/

/-- `[i for i, s in enumerate(timetable_values) if s == subj]`. -/
def indicesOf (subj : String) (vals : List String) : List Nat :=
  (vals.enum.filter (fun p => decide (p.2 = subj))).map (fun p => p.1)

/-- The while-loop of `multi_slot_constraint` chunking the (ascending)
occurrence indices into maximal runs of consecutive integers. -/
def chunkRuns : List Nat → List (List Nat)
  | [] => []
  | x :: xs =>
    match chunkRuns xs with
    | [] => [[x]]
    | [] :: rest => [x] :: [] :: rest
    | (y :: ys) :: rest =>
      if y = x + 1 then (x :: y :: ys) :: rest else [x] :: (y :: ys) :: rest

/-- `every_subject_constraint`: each subject occurs exactly its required
number of times. -/
def every_subject_constraint (required : List (String × Nat))
    (vals : List String) : Bool :=
  required.all (fun p => decide (vals.count p.1 = p.2))

/-- `all(slot_index_to_day[run[0]] == slot_index_to_day[r] for r in run)`. -/
def sameDayRun (slots : List Slot) (run : List Nat) : Bool :=
  run.all (fun r =>
    decide ((slots.getD (run.headD 0) default).day = (slots.getD r default).day))

/-- `multi_slot_constraint`: for every multi-slot subject the occurrence
indices are non-empty and chunk into runs of length exactly `duration`,
each run staying on one day. -/
def multi_slot_constraint (multi : List (String × Nat)) (slots : List Slot)
    (vals : List String) : Bool :=
  multi.all (fun p =>
    let idx := indicesOf p.1 vals
    !idx.isEmpty &&
      (chunkRuns idx).all (fun run =>
        decide (run.length = p.2) && sameDayRun slots run))

/-- `teacher_availability_constraint`: every slot assigned to a subject
starts at or after `start_hr` and strictly before `end_hr`. -/
def teacher_availability_constraint (info : List (String × SubjInfo))
    (slots : List Slot) (vals : List String) : Bool :=
  info.all (fun p =>
    (indicesOf p.1 vals).all (fun i =>
      decide (p.2.start_hr ≤ (slots.getD i default).hour) &&
      decide ((slots.getD i default).hour < p.2.end_hr)))

/-- For every occurrence of `a`, some occurrence of `b` sits at index
`-1` or `+1` (one direction of `user_consecutive_pair_constraint`). -/
def adjOK (a b : String) (vals : List String) : Bool :=
  vals.enum.all (fun p =>
    !(decide (p.2 = a)) ||
    ((decide (0 < p.1) && decide (vals.getD (p.1 - 1) "" = b)) ||
     (decide (p.1 + 1 < vals.length) && decide (vals.getD (p.1 + 1) "" = b))))

/-- No occurrence of `a` has an occurrence of `b` at index `-1` or `+1`
(one direction of `user_non_consecutive_pair_constraint`). -/
def nonAdjOK (a b : String) (vals : List String) : Bool :=
  vals.enum.all (fun p =>
    !(decide (p.2 = a)) ||
    (!(decide (0 < p.1) && decide (vals.getD (p.1 - 1) "" = b)) &&
     !(decide (p.1 + 1 < vals.length) && decide (vals.getD (p.1 + 1) "" = b))))

/-- `user_consecutive_pair_constraint`: trivial unless the saved pair has
a non-empty first name, two components and distinct names. -/
def user_consecutive_pair_constraint (cons : List String)
    (vals : List String) : Bool :=
  match cons with
  | [] => true
  | a :: rest =>
    if a = "" then true
    else
      match rest with
      | [] => true
      | b :: _ => if a = b then true else adjOK a b vals && adjOK b a vals

/-- `user_non_consecutive_pair_constraint`. -/
def user_non_consecutive_pair_constraint (noncons : List String)
    (vals : List String) : Bool :=
  match noncons with
  | [] => true
  | a :: rest =>
    if a = "" then true
    else
      match rest with
      | [] => true
      | b :: _ => if a = b then true else nonAdjOK a b vals && nonAdjOK b a vals

/-! ### app2 pipeline -/

/-- The error outcomes of both engines, one constructor per `return
{'error': ...}` site (the string messages are presentation): `noInput` =
"No constraints or courses provided.", `noWorkingDays` = "No working days
configured.", `capacityMismatch a r` = "Total available slots (a) !=
total required subject-slots (r). ... enable Allow Free Periods." (app2
only), `underCapacity a r` = "Total available slots (a) < total required
subject-slots (r). ...", `subjectUnschedulable n` = "No feasible start
slots for subject n ..." (app3 only), `infeasible` = "No valid timetable
found with the given constraints. ...". -/
inductive Err where
  | noInput
  | noWorkingDays
  | capacityMismatch (avail required : Nat)
  | underCapacity (avail required : Nat)
  | subjectUnschedulable (sname : String)
  | infeasible
deriving DecidableEq, Repr

/-- The state app2 hands to the CSP solver: the (possibly Free-extended)
demand dicts, the slot sequence and the domain `course_names`. -/
structure App2Ctx where
  required : List (String × Nat)
  info : List (String × SubjInfo)
  multi : List (String × Nat)
  slots : List Slot
  names : List String
deriving DecidableEq, Repr

/-- `generate_timetable` (src/app2.py) up to the solver call: input
validation, demand normalisation, slot construction, capacity pre-check
and Free injection. -/
def app2Generate (wds : List WorkingDay) (courses : List Course)
    (allowFree : Bool) : Except Err App2Ctx :=
  if courses.isEmpty then .error .noInput
  else if wds.isEmpty then .error .noWorkingDays
  else
    let req0 := requiredMap courses
    let info0 := infoMap courses
    let multi := multiMap courses
    let slots := get_time_slots2 (buildDayItems wds)
    let avail := slots.length
    let treq := totalRequired courses
    if treq < avail then
      if allowFree then
        let fn := freeName (dkeys req0)
        let req1 := dinsert fn (avail - treq) req0
        .ok ⟨req1, dinsert fn ⟨0, 24, 1⟩ info0, multi, slots, dkeys req1⟩
      else .error (.capacityMismatch avail treq)
    else if avail < treq then .error (.underCapacity avail treq)
    else .ok ⟨req0, info0, multi, slots, dkeys req0⟩

/-- A complete assignment the CSP solver may return: one domain value per
slot satisfying every registered constraint.  `problem.getSolution()`
returns exactly such assignments (the solver itself is external). -/
def app2Valid (cons noncons : List String) (ctx : App2Ctx)
    (vals : List String) : Bool :=
  decide (vals.length = ctx.slots.length) &&
  vals.all (fun v => decide (v ∈ ctx.names)) &&
  every_subject_constraint ctx.required vals &&
  multi_slot_constraint ctx.multi ctx.slots vals &&
  teacher_availability_constraint ctx.info ctx.slots vals &&
  user_consecutive_pair_constraint cons vals &&
  user_non_consecutive_pair_constraint noncons vals

/-- One schedule entry of the success response. -/
structure Entry where
  slot : String
  subject : String
  start_time : String
  end_time : String
deriving DecidableEq, Repr

/-- The sort key of `resp_data[day].sort(key=lambda x: x['start_time'])`:
compare entries by their `start_time` strings.  Python's `sort` is a
stable sort by this key; within one day all start times are distinct, so
every stable sort yields the same list and the evaluable
`List.insertionSort` (a stable sort) is used below. -/
def entryRel (e₁ e₂ : Entry) : Prop := e₁.start_time ≤ e₂.start_time

instance : DecidableRel entryRel :=
  fun e₁ e₂ => inferInstanceAs (Decidable (e₁.start_time ≤ e₂.start_time))

instance : IsTotal Entry entryRel :=
  ⟨fun e₁ e₂ => le_total e₁.start_time e₂.start_time⟩

instance : IsTrans Entry entryRel :=
  ⟨fun _ _ _ h₁ h₂ => le_trans h₁ h₂⟩

/-- One day's entries of app2's response before sorting: iterating
`solution.items()` in variable (= slot) order, `end_hr = start_hr + 1`. -/
def app2RespUnsorted (slots : List Slot) (vals : List String) (d : Day) :
    List Entry :=
  (slots.zip vals).filterMap (fun p =>
    if p.1.day = d then
      some ⟨p.1.sname, p.2, fmtTime p.1.hour, fmtTime (p.1.hour + 1)⟩
    else none)

/-- One day's entries of app2's response, sorted by `start_time`. -/
def app2Response (slots : List Slot) (vals : List String) (d : Day) :
    List Entry :=
  List.insertionSort entryRel (app2RespUnsorted slots vals d)

/-- All length-`n` tuples over `xs` (a fixed deterministic enumeration of
the solver's search space). -/
def tuples {α : Type} (xs : List α) : Nat → List (List α)
  | 0 => [[]]
  | n + 1 => xs.flatMap (fun x => (tuples xs n).map (fun t => x :: t))

/-- The whole app2 engine with the external backtracking solver modelled
as the first satisfying assignment of a fixed complete enumeration
(`getSolution` is complete: it returns an assignment iff one exists). -/
def app2Run (wds : List WorkingDay) (cons noncons : List String)
    (courses : List Course) (allowFree : Bool) :
    Except Err (Day → List Entry) :=
  match app2Generate wds courses allowFree with
  | .error e => .error e
  | .ok ctx =>
    match (tuples ctx.names ctx.slots.length).find?
        (fun v => app2Valid cons noncons ctx v) with
    | some v => .ok (app2Response ctx.slots v)
    | none => .error .infeasible

/-- Entries of a returned response on day `d` (empty list on error). -/
def runDay (r : Except Err (Day → List Entry)) (d : Day) : List Entry :=
  match r with
  | .ok f => f d
  | .error _ => []

/-- `sum(len(day_schedule) for each day)` of a response. -/
def respTotal (resp : Day → List Entry) : Nat :=
  ∑ d : Day, (resp d).length

/-- Number of response entries bearing subject name `s`. -/
def respCount (s : String) (resp : Day → List Entry) : Nat :=
  ∑ d : Day, (resp d).countP (fun e => decide (e.subject = s))

/-! ### app3 pipeline (`generate_timetable_ortools`, src/app3.py) -/

/-- Course record turned into app3's subject dict. -/
def toSubj (c : Course) : Subj :=
  ⟨c.cname, c.lectureno, c.duration, c.start_hr, c.end_hr⟩

/-- The allowed start indices of one occurrence of `sub`: the block
`[s, s + duration - 1]` fits before `num_slots`, its first and last slot
lie on the same day, and every covered slot's hour is inside
`[start_hr, end_hr)`.  (As in the source, only the endpoints are
day-checked; `range(s, end_idx + 1)` is `range' s duration` for the UI's
durations `>= 1`.) -/
def allowedStarts (slots : List Slot) (sub : Subj) : List Nat :=
  (List.range slots.length).filter (fun s =>
    decide (s + sub.duration - 1 < slots.length) &&
    decide ((slots.getD s default).day =
      (slots.getD (s + sub.duration - 1) default).day) &&
    (List.range' s sub.duration).all (fun t =>
      decide (sub.start_hr ≤ (slots.getD t default).hour) &&
      decide ((slots.getD t default).hour < sub.end_hr)))

/-- `allowed_starts_cache`: a name-keyed dict, later same-named subjects
overwriting earlier ones. -/
def allowedCache (slots : List Slot) (subjects : List Subj) :
    List (String × List Nat) :=
  subjects.foldl (fun m sub => dinsert sub.sname (allowedStarts slots sub) m) []

/-- The state app3 hands to CP-SAT: subjects (with Free appended when
injected), slots and the allowed-start cache. -/
structure App3Ctx where
  subjects : List Subj
  slots : List Slot
  cache : List (String × List Nat)
deriving DecidableEq, Repr

/-- `generate_timetable_ortools` up to the solver call: input validation,
slot construction, the (under-capacity only!) capacity pre-check, Free
injection, allowed-start computation and the per-subject feasibility
check. -/
def app3Generate (wds : List WorkingDay) (courses : List Course)
    (allowFree : Bool) : Except Err App3Ctx :=
  if courses.isEmpty then .error .noInput
  else if wds.isEmpty then .error .noWorkingDays
  else
    let subs0 := courses.map toSubj
    let slots := get_time_slots3 (buildDayItems wds)
    let avail := slots.length
    let treq := (subs0.map (fun s => s.lectures * s.duration)).sum
    if avail < treq then .error (.underCapacity avail treq)
    else
      let subs :=
        if treq < avail && allowFree then
          subs0 ++ [⟨freeName (subs0.map (fun s => s.sname)),
                     avail - treq, 1, 0, 24⟩]
        else subs0
      let cache := allowedCache slots subs
      match subs.find? (fun s =>
          ((dlookup s.sname cache).getD []).isEmpty &&
          decide (0 < s.lectures)) with
      | some s => .error (.subjectUnschedulable s.sname)
      | none => .ok ⟨subs, slots, cache⟩

/-- One lecture occurrence as solved: subject name, start index assigned
by the solver, duration. -/
structure Occ where
  oname : String
  start : Nat
  dur : Nat
deriving DecidableEq, Repr

instance : Inhabited Occ := ⟨⟨"", 0, 0⟩⟩

/-- The occurrence list in `occ_metadata` order (subjects in list order,
each subject's occurrences in creation order), given the per-subject start
assignments. -/
def occList (subjects : List Subj) (starts : List (List Nat)) : List Occ :=
  (subjects.zip starts).flatMap (fun p =>
    p.2.map (fun s => ⟨p.1.sname, s, p.1.duration⟩))

/-- `model.AddNoOverlap(all_intervals)` on the solved start values. -/
def noOverlapOK (occs : List Occ) : Bool :=
  occs.enum.all (fun a => occs.enum.all (fun b =>
    decide (a.1 = b.1) ||
    decide (a.2.start + a.2.dur ≤ b.2.start) ||
    decide (b.2.start + b.2.dur ≤ a.2.start)))

/-- What `add_consecutive_pair A B` requires of a solution: nothing if
either side has no occurrences; otherwise every occurrence of `A` has some
occurrence of `B` starting right after it or ending right at it (the
`sum(adj_bools) >= 1` constraint, one per `A`-occurrence — note the `B`
side is NOT constrained). -/
def consOK3 (A B : String) (occs : List Occ) : Bool :=
  let oA := occs.filter (fun o => decide (o.oname = A))
  let oB := occs.filter (fun o => decide (o.oname = B))
  oA.isEmpty || oB.isEmpty ||
  oA.all (fun a => oB.any (fun b =>
    decide (a.start + a.dur = b.start) || decide (b.start + b.dur = a.start)))

/-- What `add_non_consecutive_pair A B` requires: no occurrence pair is
start-adjacent in either direction. -/
def nonconsOK3 (A B : String) (occs : List Occ) : Bool :=
  let oA := occs.filter (fun o => decide (o.oname = A))
  let oB := occs.filter (fun o => decide (o.oname = B))
  oA.all (fun a => oB.all (fun b =>
    !(decide (a.start + a.dur = b.start)) &&
    !(decide (b.start + b.dur = a.start))))

/-- `if cons and cons[0]: if len(cons) >= 2: ...` — the saved pair is
applied only when non-empty, first component non-empty and two components
present. -/
def pairActive (l : List String) : Option (String × String) :=
  match l with
  | a :: b :: _ => if a = "" then none else some (a, b)
  | _ => none

/-- A per-subject start assignment CP-SAT may return as FEASIBLE: one
start per lecture occurrence, each from the subject's cached allowed
starts, intervals non-overlapping, adjacency pairs respected. -/
def app3Feasible (cons noncons : List String) (ctx : App3Ctx)
    (starts : List (List Nat)) : Bool :=
  decide (starts.length = ctx.subjects.length) &&
  (ctx.subjects.zip starts).all (fun p =>
    decide (p.2.length = p.1.lectures) &&
    p.2.all (fun s => decide (s ∈ (dlookup p.1.sname ctx.cache).getD []))) &&
  noOverlapOK (occList ctx.subjects starts) &&
  (match pairActive cons with
   | some p => consOK3 p.1 p.2 (occList ctx.subjects starts)
   | none => true) &&
  (match pairActive noncons with
   | some p => nonconsOK3 p.1 p.2 (occList ctx.subjects starts)
   | none => true)

/-- One day's entries of app3's response before sorting: ONE entry per
occurrence (not per occupied slot), `slot` and `start_time` from the start
slot, `end_time = start_hr + duration`. -/
def app3RespUnsorted (slots : List Slot) (subjects : List Subj)
    (starts : List (List Nat)) (d : Day) : List Entry :=
  (subjects.zip starts).flatMap (fun p =>
    p.2.filterMap (fun s =>
      if (slots.getD s default).day = d then
        some ⟨(slots.getD s default).sname, p.1.sname,
              fmtTime (slots.getD s default).hour,
              fmtTime ((slots.getD s default).hour + p.1.duration)⟩
      else none))

/-- One day's entries of app3's response, sorted by `start_time`. -/
def app3Response (slots : List Slot) (subjects : List Subj)
    (starts : List (List Nat)) (d : Day) : List Entry :=
  List.insertionSort entryRel (app3RespUnsorted slots subjects starts d)

/-- Slot indices occupied by an occurrence. -/
def occIndices (o : Occ) : List Nat := List.range' o.start o.dur

/-- All slot indices occupied by occurrences of subject `A`. -/
def subjectIndices3 (A : String) (occs : List Occ) : List Nat :=
  (occs.filter (fun o => decide (o.oname = A))).flatMap occIndices

/-! ### Derived quantities and helpers for concrete instances -/

/-- `total_available_slots` of app2 for a `working_days` list. -/
def totalAvail2 (wds : List WorkingDay) : Nat :=
  (get_time_slots2 (buildDayItems wds)).length

/-- `total_available_slots` of app3 for a `working_days` list. -/
def totalAvail3 (wds : List WorkingDay) : Nat :=
  (get_time_slots3 (buildDayItems wds)).length

/-- app3's `total_required_slots`:
`sum(s['lectures'] * s['duration'] for s in subjects)` over the course
subjects (before Free injection). -/
def totalRequired3 (courses : List Course) : Nat :=
  (courses.map (fun c => c.lectureno * c.duration)).sum

/-- The context of a successful `app3Generate` (junk on error; used only
to state concrete-instance facts). -/
def app3Ok (wds : List WorkingDay) (courses : List Course)
    (allowFree : Bool) : App3Ctx :=
  (app3Generate wds courses allowFree).toOption.getD ⟨[], [], []⟩

/-- The context of a successful `app2Generate` (junk on error). -/
def app2Ok (wds : List WorkingDay) (courses : List Course)
    (allowFree : Bool) : App2Ctx :=
  (app2Generate wds courses allowFree).toOption.getD ⟨[], [], [], [], []⟩

/-- Decimal parser used to invert `natDecimal` in proofs. -/
def parseNat (cs : List Char) : Nat :=
  cs.foldl (fun acc c => acc * 10 + (c.toNat - 48)) 0

/-! ## Lemma layer

### Dictionary lemmas -/

theorem dlookup_dinsert_self {α β : Type} [DecidableEq α] (k : α) (v : β)
    (m : List (α × β)) : dlookup k (dinsert k v m) = some v := by
  unfold dinsert dlookup
  by_cases h : m.any (fun p => p.1 = k)
  · rw [if_pos h, List.find?_map]
    rcases List.any_eq_true.mp h with ⟨q, hq, hq1⟩
    have hq1' : q.1 = k := by simpa using hq1
    have hsome : (m.find? ((fun p => decide (p.1 = k)) ∘
        fun p => if p.1 = k then (k, v) else p)).isSome := by
      apply List.find?_isSome.mpr
      exact ⟨q, hq, by simp [Function.comp, hq1']⟩
    rcases Option.isSome_iff_exists.mp hsome with ⟨r, hr⟩
    have hrk : (if r.1 = k then (k, v) else r).1 = k := by
      have := List.find?_some hr
      simpa using this
    rw [hr]
    simp only [Option.map_some']
    by_cases hk : r.1 = k
    · simp [hk]
    · rw [if_neg hk] at hrk
      exact absurd hrk hk
  · rw [if_neg h, List.find?_append]
    have hnone : m.find? (fun p => decide (p.1 = k)) = none := by
      rcases h2 : m.find? (fun p => decide (p.1 = k)) with _ | q
      · exact h2
      · exact absurd (List.any_eq_true.mpr
          ⟨q, List.mem_of_find?_eq_some h2, List.find?_some h2⟩) h
    rw [hnone]
    simp [List.find?]

theorem dlookup_dinsert_ne {α β : Type} [DecidableEq α] {k k' : α} (v : β)
    (m : List (α × β)) (hne : k' ≠ k) :
    dlookup k' (dinsert k v m) = dlookup k' m := by
  unfold dinsert dlookup
  by_cases h : m.any (fun p => p.1 = k)
  · rw [if_pos h, List.find?_map]
    have hpred : ((fun p : α × β => decide (p.1 = k')) ∘
        fun p => if p.1 = k then (k, v) else p) =
        fun p : α × β => decide (p.1 = k') := by
      funext p
      by_cases hk : p.1 = k
      · simp [hk, Ne.symm hne]
      · simp [hk]
    rw [hpred]
    rcases h2 : m.find? (fun p => decide (p.1 = k')) with _ | q
    · rw [h2]; rfl
    · rw [h2]
      have hq : q.1 = k' := by simpa using List.find?_some h2
      have hqk : q.1 ≠ k := by rw [hq]; exact hne
      simp [hqk]
  · rw [if_neg h, List.find?_append]
    rcases h2 : m.find? (fun p => decide (p.1 = k')) with _ | q
    · rw [h2]
      simp [List.find?, Ne.symm hne]
    · rw [h2]; rfl

theorem mem_dkeys_dinsert {α β : Type} [DecidableEq α] (k x : α) (v : β)
    (m : List (α × β)) :
    x ∈ dkeys (dinsert k v m) ↔ x ∈ dkeys m ∨ x = k := by
  unfold dinsert dkeys
  by_cases h : m.any (fun p => p.1 = k)
  · rw [if_pos h, List.map_map]
    have hmap : ((fun p : α × β => p.1) ∘ fun p => if p.1 = k then (k, v) else p) =
        fun p : α × β => p.1 := by
      funext p
      by_cases hk : p.1 = k <;> simp [hk]
    rw [hmap]
    rcases List.any_eq_true.mp h with ⟨q, hq, hq1⟩
    have hk : k ∈ m.map (fun p => p.1) := by
      simp only [decide_eq_true_eq] at hq1
      exact hq1 ▸ List.mem_map_of_mem _ hq
    constructor
    · exact Or.inl
    · rintro (hx | rfl)
      · exact hx
      · exact hk
  · rw [if_neg h, List.map_append]
    simp

theorem nodup_dkeys_dinsert {α β : Type} [DecidableEq α] (k : α) (v : β)
    (m : List (α × β)) (hnd : (dkeys m).Nodup) :
    (dkeys (dinsert k v m)).Nodup := by
  unfold dinsert dkeys at *
  by_cases h : m.any (fun p => p.1 = k)
  · rw [if_pos h, List.map_map]
    have hmap : ((fun p : α × β => p.1) ∘ fun p => if p.1 = k then (k, v) else p) =
        fun p : α × β => p.1 := by
      funext p
      by_cases hk : p.1 = k <;> simp [hk]
    rw [hmap]; exact hnd
  · rw [if_neg h, List.map_append]
    rw [List.nodup_append]
    refine ⟨hnd, by simp, ?_⟩
    intro x hx hx2
    simp only [List.map_cons, List.map_nil, List.mem_singleton] at hx2
    subst hx2
    exact h (List.any_eq_true.mpr (by
      rcases List.mem_map.mp hx with ⟨q, hq, hq1⟩
      exact ⟨q, hq, by simp [hq1]⟩))

theorem dinsert_fresh {α β : Type} [DecidableEq α] (k : α) (v : β)
    (m : List (α × β)) (h : k ∉ dkeys m) : dinsert k v m = m ++ [(k, v)] := by
  unfold dinsert
  rw [if_neg]
  intro hany
  rcases List.any_eq_true.mp hany with ⟨q, hq, hq1⟩
  simp only [decide_eq_true_eq] at hq1
  exact h (hq1 ▸ List.mem_map_of_mem _ hq)

/-- Looking a key up after a fold of conditional insertions returns the
value of the last element that inserted the key (the Python dict
overwrite behaviour). -/
theorem dlookup_foldl {α κ β : Type} [DecidableEq κ]
    {step : List (κ × β) → α → List (κ × β)} {p : α → Bool} {val : α → β}
    {k : κ}
    (hstep : ∀ m c, dlookup k (step m c) =
      if p c then some (val c) else dlookup k m) :
    ∀ (l : List α) (m : List (κ × β)),
      dlookup k (l.foldl step m) =
      ((l.reverse.find? p).map val).or (dlookup k m) := by
  intro l
  induction l with
  | nil => intro m; simp
  | cons c t ih =>
    intro m
    rw [List.foldl_cons, ih, List.reverse_cons, List.find?_append]
    rcases h : t.reverse.find? p with _ | d
    · rw [hstep]
      cases hp : p c <;> simp [List.find?, hp]
    · simp

theorem mem_dkeys_foldl {α κ β : Type} [DecidableEq κ]
    {step : List (κ × β) → α → List (κ × β)} {p : α → Bool} {key : α → κ}
    (hstep : ∀ m c x, x ∈ dkeys (step m c) ↔
      x ∈ dkeys m ∨ (p c = true ∧ x = key c)) :
    ∀ (l : List α) (m : List (κ × β)) (x : κ),
      x ∈ dkeys (l.foldl step m) ↔
      x ∈ dkeys m ∨ ∃ c ∈ l, p c = true ∧ x = key c := by
  intro l
  induction l with
  | nil => intro m x; simp
  | cons c t ih =>
    intro m x
    rw [List.foldl_cons, ih, hstep]
    simp only [List.mem_cons]
    constructor
    · rintro ((hm | hc) | ⟨d, hd, hpd, hx⟩)
      · exact Or.inl hm
      · exact Or.inr ⟨c, Or.inl rfl, hc⟩
      · exact Or.inr ⟨d, Or.inr hd, hpd, hx⟩
    · rintro (hm | ⟨d, (rfl | hd), hpd, hx⟩)
      · exact Or.inl (Or.inl hm)
      · exact Or.inl (Or.inr ⟨hpd, hx⟩)
      · exact Or.inr ⟨d, hd, hpd, hx⟩

theorem nodup_dkeys_foldl {α κ β : Type} [DecidableEq κ]
    {step : List (κ × β) → α → List (κ × β)}
    (hstep : ∀ m c, (dkeys m).Nodup → (dkeys (step m c)).Nodup) :
    ∀ (l : List α) (m : List (κ × β)),
      (dkeys m).Nodup → (dkeys (l.foldl step m)).Nodup := by
  intro l
  induction l with
  | nil => intro m h; exact h
  | cons c t ih => intro m h; exact ih _ (hstep _ _ h)

/-- `subject_required_slots[nm]` is determined by the last course named
`nm` (Python dict overwrite). -/
theorem dlookup_requiredMap (courses : List Course) (nm : String) :
    dlookup nm (requiredMap courses) =
    (courses.reverse.find? (fun c => decide (c.cname = nm))).map
      (fun c => c.lectureno * c.duration) := by
  have hstep : ∀ (m : List (String × Nat)) (c : Course),
      dlookup nm (dinsert c.cname (c.lectureno * c.duration) m) =
      if decide (c.cname = nm) then some (c.lectureno * c.duration)
      else dlookup nm m := by
    intro m c
    by_cases hc : c.cname = nm
    · rw [hc, if_pos (by simp), dlookup_dinsert_self]
    · rw [if_neg (by simpa using hc), dlookup_dinsert_ne _ _ (Ne.symm hc)]
  have h := dlookup_foldl hstep courses []
  have hbase : dlookup nm ([] : List (String × Nat)) = none := rfl
  rw [requiredMap, h, hbase, Option.or_none]

/-- `subject_info[nm]` is determined by the last course named `nm`. -/
theorem dlookup_infoMap (courses : List Course) (nm : String) :
    dlookup nm (infoMap courses) =
    (courses.reverse.find? (fun c => decide (c.cname = nm))).map
      (fun c => (⟨c.start_hr, c.end_hr, c.duration⟩ : SubjInfo)) := by
  have hstep : ∀ (m : List (String × SubjInfo)) (c : Course),
      dlookup nm (dinsert c.cname (⟨c.start_hr, c.end_hr, c.duration⟩ : SubjInfo) m) =
      if decide (c.cname = nm)
      then some (⟨c.start_hr, c.end_hr, c.duration⟩ : SubjInfo)
      else dlookup nm m := by
    intro m c
    by_cases hc : c.cname = nm
    · rw [hc, if_pos (by simp), dlookup_dinsert_self]
    · rw [if_neg (by simpa using hc), dlookup_dinsert_ne _ _ (Ne.symm hc)]
  have h := dlookup_foldl hstep courses []
  have hbase : dlookup nm ([] : List (String × SubjInfo)) = none := rfl
  rw [infoMap, h, hbase, Option.or_none]

/-- `multi_slot_subjects[nm]` is determined by the last course named `nm`
whose duration exceeds 1 — NOT by the last course named `nm`. -/
theorem dlookup_multiMap (courses : List Course) (nm : String) :
    dlookup nm (multiMap courses) =
    (courses.reverse.find?
      (fun c => decide (1 < c.duration) && decide (c.cname = nm))).map
      (fun c => c.duration) := by
  have hstep : ∀ (m : List (String × Nat)) (c : Course),
      dlookup nm (if 1 < c.duration then dinsert c.cname c.duration m else m) =
      if decide (1 < c.duration) && decide (c.cname = nm) then some c.duration
      else dlookup nm m := by
    intro m c
    by_cases hd : 1 < c.duration
    · rw [if_pos hd]
      by_cases hc : c.cname = nm
      · rw [hc, dlookup_dinsert_self]
        simp [hd, hc]
      · rw [dlookup_dinsert_ne _ _ (Ne.symm hc)]
        simp [hc]
    · rw [if_neg hd]
      simp [hd]
  have h := dlookup_foldl hstep courses []
  have hbase : dlookup nm ([] : List (String × Nat)) = none := rfl
  rw [multiMap, h, hbase, Option.or_none]

/-- `allowed_starts_cache[nm]` is the allowed-start list of the last
subject named `nm`. -/
theorem dlookup_allowedCache (slots : List Slot) (subjects : List Subj)
    (nm : String) :
    dlookup nm (allowedCache slots subjects) =
    (subjects.reverse.find? (fun s => decide (s.sname = nm))).map
      (fun s => allowedStarts slots s) := by
  have hstep : ∀ (m : List (String × List Nat)) (s : Subj),
      dlookup nm (dinsert s.sname (allowedStarts slots s) m) =
      if decide (s.sname = nm) then some (allowedStarts slots s)
      else dlookup nm m := by
    intro m s
    by_cases hc : s.sname = nm
    · rw [hc, if_pos (by simp), dlookup_dinsert_self]
    · rw [if_neg (by simpa using hc), dlookup_dinsert_ne _ _ (Ne.symm hc)]
  have h := dlookup_foldl hstep subjects []
  have hbase : dlookup nm ([] : List (String × List Nat)) = none := rfl
  rw [allowedCache, h, hbase, Option.or_none]

/-- The keys of `subject_required_slots` are exactly the course names. -/
theorem mem_dkeys_requiredMap (courses : List Course) (x : String) :
    x ∈ dkeys (requiredMap courses) ↔ x ∈ courses.map Course.cname := by
  have hstep : ∀ (m : List (String × Nat)) (c : Course) (y : String),
      y ∈ dkeys (dinsert c.cname (c.lectureno * c.duration) m) ↔
      y ∈ dkeys m ∨ ((fun _ : Course => true) c = true ∧ y = c.cname) := by
    intro m c y
    rw [mem_dkeys_dinsert]
    simp
  have h := mem_dkeys_foldl hstep courses [] x
  rw [requiredMap, h]
  simp [dkeys, eq_comm]

/-- The keys of `subject_required_slots` are distinct. -/
theorem nodup_dkeys_requiredMap (courses : List Course) :
    (dkeys (requiredMap courses)).Nodup := by
  have hstep : ∀ (m : List (String × Nat)) (c : Course),
      (dkeys m).Nodup →
      (dkeys (dinsert c.cname (c.lectureno * c.duration) m)).Nodup :=
    fun m c h => nodup_dkeys_dinsert _ _ _ h
  exact nodup_dkeys_foldl hstep courses [] (by simp [dkeys])

/-- Appending a fresh binding appends its key. -/
theorem dkeys_append_single {α β : Type} (m : List (α × β)) (k : α) (v : β) :
    dkeys (m ++ [(k, v)]) = dkeys m ++ [k] := by
  simp [dkeys]

/-- The keys of `subject_info` are exactly the course names. -/
theorem mem_dkeys_infoMap (courses : List Course) (x : String) :
    x ∈ dkeys (infoMap courses) ↔ x ∈ courses.map Course.cname := by
  have hstep : ∀ (m : List (String × SubjInfo)) (c : Course) (y : String),
      y ∈ dkeys (dinsert c.cname (⟨c.start_hr, c.end_hr, c.duration⟩ : SubjInfo) m) ↔
      y ∈ dkeys m ∨ ((fun _ : Course => true) c = true ∧ y = c.cname) := by
    intro m c y
    rw [mem_dkeys_dinsert]
    simp
  have h := mem_dkeys_foldl hstep courses [] x
  rw [infoMap, h]
  simp [dkeys, eq_comm]

/-- With distinct keys, the sum of a dict's values is the sum of the
lookups over the key set. -/
theorem sum_values_eq (m : List (String × Nat)) (hnd : (dkeys m).Nodup) :
    (m.map (fun p => p.2)).sum =
    ∑ k ∈ (dkeys m).toFinset, (dlookup k m).getD 0 := by
  induction m with
  | nil => simp [dkeys]
  | cons q t ih =>
    have hq : q.1 ∉ dkeys t := by
      simp only [dkeys, List.map_cons, List.nodup_cons] at hnd
      exact hnd.1
    have hnd' : (dkeys t).Nodup := by
      simp only [dkeys, List.map_cons, List.nodup_cons] at hnd
      exact hnd.2
    have hkeys : dkeys (q :: t) = q.1 :: dkeys t := rfl
    rw [List.map_cons, List.sum_cons, ih hnd', hkeys, List.toFinset_cons,
      Finset.sum_insert (by simpa [List.mem_toFinset] using hq)]
    congr 1
    · simp [dlookup, List.find?]
    · apply Finset.sum_congr rfl
      intro k hk
      have hkt : k ∈ dkeys t := List.mem_toFinset.mp hk
      have hne : q.1 ≠ k := fun h => hq (h ▸ hkt)
      have : dlookup k (q :: t) = dlookup k t := by
        simp [dlookup, List.find?, hne]
      rw [this]

/-! ### Decimal numerals are injective; the Free name is fresh -/

theorem digitChar10_toNat {d : Nat} (h : d < 10) :
    (digitChar10 d).toNat = 48 + d := by
  interval_cases d <;> rfl

theorem natDecimalAux_length_pos (n fuel : Nat) (h : 0 < fuel) :
    0 < (natDecimalAux fuel n).length := by
  cases fuel with
  | zero => omega
  | succ fuel =>
    rw [natDecimalAux]
    split <;> simp

theorem parseNat_natDecimalAux :
    ∀ (fuel n : Nat), n < fuel → parseNat (natDecimalAux fuel n) = n := by
  intro fuel
  induction fuel with
  | zero => intro n h; omega
  | succ fuel ih =>
    intro n h
    by_cases h10 : n < 10
    · rw [show natDecimalAux (fuel + 1) n = [digitChar10 n] from by
        rw [natDecimalAux, if_pos h10]]
      unfold parseNat
      simp only [List.foldl_cons, List.foldl_nil]
      rw [digitChar10_toNat h10]
      omega
    · have hdiv : n / 10 < fuel := by
        have h1 : n / 10 < n := Nat.div_lt_self (by omega) (by omega)
        omega
      rw [natDecimalAux, if_neg h10]
      unfold parseNat
      rw [List.foldl_append]
      simp only [List.foldl_cons, List.foldl_nil]
      have hrec := ih (n / 10) hdiv
      unfold parseNat at hrec
      rw [hrec, digitChar10_toNat (Nat.mod_lt _ (by omega))]
      omega

theorem natDecimal_inj {m n : Nat} (h : natDecimal m = natDecimal n) :
    m = n := by
  have hdata : natDecimalAux (m + 1) m = natDecimalAux (n + 1) n :=
    congrArg String.data h
  have h1 := parseNat_natDecimalAux (m + 1) m (by omega)
  have h2 := parseNat_natDecimalAux (n + 1) n (by omega)
  rw [← h1, ← h2, hdata]

theorem candFree_inj {j k : Nat} (h : candFree j = candFree k) : j = k := by
  unfold candFree at h
  have hdata := congrArg String.data h
  rw [String.data_append, String.data_append] at hdata
  have hd := List.append_cancel_left hdata
  have h1 := parseNat_natDecimalAux (j + 1) j (by omega)
  have h2 := parseNat_natDecimalAux (k + 1) k (by omega)
  have hdd : natDecimalAux (j + 1) j = natDecimalAux (k + 1) k := hd
  rw [← h1, ← h2, hdd]

theorem candFree_ne_Free (k : Nat) : candFree k ≠ "Free" := by
  intro h
  have hdata := congrArg String.data h
  rw [candFree, String.data_append] at hdata
  have hlen := congrArg List.length hdata
  rw [List.length_append] at hlen
  have h5 : ("Free_".data).length = 5 := rfl
  have h4 : ("Free".data).length = 4 := rfl
  omega

theorem exists_fresh_candidate (names : List String) :
    ∃ j, j < names.length + 1 ∧ candFree (1 + j) ∉ names := by
  by_contra h
  push_neg at h
  have hmaps : ∀ j ∈ Finset.range (names.length + 1),
      candFree (1 + j) ∈ names.toFinset := by
    intro j hj
    rw [List.mem_toFinset]
    exact h j (Finset.mem_range.mp hj)
  have hcard : names.toFinset.card < (Finset.range (names.length + 1)).card := by
    rw [Finset.card_range]
    exact Nat.lt_succ_of_le names.toFinset_card_le
  obtain ⟨x, _, y, _, hxy, hfxy⟩ :=
    Finset.exists_ne_map_eq_of_card_lt_of_maps_to hcard hmaps
  exact hxy (by have := candFree_inj hfxy; omega)

theorem freeLoop_fresh (names : List String) :
    ∀ (fuel cnt : Nat) (cur : String),
      (cur ∉ names ∨ ∃ j, j < fuel ∧ candFree (cnt + j) ∉ names) →
      freeLoop names cur cnt fuel ∉ names := by
  intro fuel
  induction fuel with
  | zero =>
    intro cnt cur h
    rcases h with h | ⟨j, hj, _⟩
    · exact h
    · omega
  | succ fuel ih =>
    intro cnt cur h
    by_cases hcur : cur ∈ names
    · rw [freeLoop, if_pos hcur]
      apply ih
      rcases h with h | ⟨j, hj, hfree⟩
      · exact absurd hcur h
      · rcases j with _ | j'
        · exact Or.inl (by simpa using hfree)
        · refine Or.inr ⟨j', by omega, ?_⟩
          have harith : cnt + (j' + 1) = cnt + 1 + j' := by omega
          rwa [harith] at hfree
    · rw [freeLoop, if_neg hcur]
      exact hcur

theorem freeLoop_shape (names : List String) :
    ∀ (fuel cnt : Nat) (cur : String),
      freeLoop names cur cnt fuel = cur ∨
      ∃ k, cnt ≤ k ∧ freeLoop names cur cnt fuel = candFree k := by
  intro fuel
  induction fuel with
  | zero => intro cnt cur; exact Or.inl rfl
  | succ fuel ih =>
    intro cnt cur
    by_cases hcur : cur ∈ names
    · rw [freeLoop, if_pos hcur]
      rcases ih (cnt + 1) (candFree cnt) with h | ⟨k, hk, h⟩
      · exact Or.inr ⟨cnt, le_refl cnt, h⟩
      · exact Or.inr ⟨k, by omega, h⟩
    · rw [freeLoop, if_neg hcur]
      exact Or.inl rfl

/-- The injected Free name never collides with an existing subject name. -/
theorem freeName_fresh (names : List String) : freeName names ∉ names := by
  unfold freeName
  apply freeLoop_fresh
  by_cases hf : "Free" ∈ names
  · obtain ⟨j, hj, hfree⟩ := exists_fresh_candidate names
    exact Or.inr ⟨j, by omega, hfree⟩
  · exact Or.inl hf

/-- The injected Free name is `"Free"` or `"Free_" + str(k)` with
`k >= 1`. -/
theorem freeName_shape (names : List String) :
    freeName names = "Free" ∨ ∃ k, 1 ≤ k ∧ freeName names = candFree k := by
  unfold freeName
  exact freeLoop_shape names _ 1 "Free"

/-! ### Slot builder lemmas -/

theorem length_hoursFrom2 : ∀ (n s : Nat), (hoursFrom2 s n).length = n := by
  intro n
  induction n with
  | zero => intro s; rfl
  | succ n ih => intro s; rw [hoursFrom2]; simp [ih]

theorem length_hoursFrom3 : ∀ (n s : Nat), (hoursFrom3 s n).length = n := by
  intro n
  induction n with
  | zero => intro s; rfl
  | succ n ih => intro s; rw [hoursFrom3]; simp [ih]

/-- app3's builder never assigns hour 12. -/
theorem hoursFrom3_ne_12 : ∀ (n s h : Nat), h ∈ hoursFrom3 s n → h ≠ 12 := by
  intro n
  induction n with
  | zero => intro s h hmem; simp [hoursFrom3] at hmem
  | succ n ih =>
    intro s h hmem
    rw [hoursFrom3] at hmem
    rcases List.mem_cons.mp hmem with rfl | hmem'
    · by_cases hs : s = 12 <;> simp [hs]
    · exact ih _ _ hmem'

/-- app2's builder never assigns hour 13 unless the day starts at 13
(it jumps from 12 straight to 14). -/
theorem hoursFrom2_ne_13 : ∀ (n s : Nat), s ≠ 13 →
    ∀ h ∈ hoursFrom2 s n, h ≠ 13 := by
  intro n
  induction n with
  | zero => intro s _ h hmem; simp [hoursFrom2] at hmem
  | succ n ih =>
    intro s hs h hmem
    rw [hoursFrom2] at hmem
    rcases List.mem_cons.mp hmem with rfl | hmem'
    · exact hs
    · apply ih _ _ _ hmem'
      by_cases h12 : s = 12 <;> simp [h12]


/-- The first slot of a day starts at the configured start hour (app2). -/
theorem head_hoursFrom2 (s n : Nat) (h : 0 < n) :
    (hoursFrom2 s n).headD 0 = s := by
  cases n with
  | zero => omega
  | succ n => rfl

/-- The first slot of a day starts at the configured start hour, shifted
off 12, in app3. -/
theorem head_hoursFrom3 (s n : Nat) (h : 0 < n) :
    (hoursFrom3 s n).headD 0 = if s = 12 then s + 1 else s := by
  cases n with
  | zero => omega
  | succ n => rfl

theorem length_mkSlots (d : Day) (hours : List Nat) :
    (mkSlots d hours).length = hours.length := by
  simp [mkSlots, List.enum_length]

theorem mem_mkSlots_day {d : Day} {hours : List Nat} {sl : Slot}
    (h : sl ∈ mkSlots d hours) : sl.day = d := by
  rcases List.mem_map.mp h with ⟨p, _, rfl⟩
  rfl

theorem mem_mkSlots_hour {d : Day} {hours : List Nat} {sl : Slot}
    (h : sl ∈ mkSlots d hours) : sl.hour ∈ hours := by
  rcases List.mem_map.mp h with ⟨p, hp, rfl⟩
  exact List.getElem?_mem (List.mem_enum_iff_getElem?.mp hp)

theorem mem_slots_flatMap_day {items : List (Day × Nat × Nat)}
    {f : Nat → Nat → List Nat} {sl : Slot}
    (h : sl ∈ items.flatMap (fun it => mkSlots it.1 (f it.2.2 it.2.1))) :
    ∃ it ∈ items, sl.day = it.1 := by
  rcases List.mem_flatMap.mp h with ⟨it, hit, hsl⟩
  exact ⟨it, hit, mem_mkSlots_day hsl⟩

/-- With distinct day keys, each day of the builder input contributes
exactly `total_hours` slots to the built sequence. -/
theorem filter_day_flatMap (f : Nat → Nat → List Nat)
    (hlen : ∀ s n, (f s n).length = n) :
    ∀ (items : List (Day × Nat × Nat)),
      (items.map (fun it => it.1)).Nodup →
      ∀ it ∈ items,
        ((items.flatMap (fun x => mkSlots x.1 (f x.2.2 x.2.1))).filter
          (fun sl => decide (sl.day = it.1))).length = it.2.1 := by
  intro items
  induction items with
  | nil => intro _ it hit; simp at hit
  | cons a t ih =>
    intro hnd it hit
    have hnd1 : a.1 ∉ t.map (fun it => it.1) := by
      simp only [List.map_cons, List.nodup_cons] at hnd
      exact hnd.1
    have hnd2 : (t.map (fun it => it.1)).Nodup := by
      simp only [List.map_cons, List.nodup_cons] at hnd
      exact hnd.2
    rw [List.flatMap_cons, List.filter_append, List.length_append]
    rcases List.mem_cons.mp hit with rfl | hit'
    · have hall : (mkSlots it.1 (f it.2.2 it.2.1)).filter
          (fun sl => decide (sl.day = it.1)) = mkSlots it.1 (f it.2.2 it.2.1) := by
        rw [List.filter_eq_self]
        intro sl hsl
        simp [mem_mkSlots_day hsl]
      have hnil : (t.flatMap (fun x => mkSlots x.1 (f x.2.2 x.2.1))).filter
          (fun sl => decide (sl.day = it.1)) = [] := by
        rw [List.filter_eq_nil_iff]
        intro sl hsl
        rcases mem_slots_flatMap_day hsl with ⟨x, hx, hday⟩
        simp only [decide_eq_true_eq]
        intro hcon
        exact hnd1 (by
          rw [← hcon, hday]
          exact List.mem_map_of_mem _ hx)
      rw [hall, hnil, length_mkSlots, hlen]
      simp
    · have hnil : (mkSlots a.1 (f a.2.2 a.2.1)).filter
          (fun sl => decide (sl.day = it.1)) = [] := by
        rw [List.filter_eq_nil_iff]
        intro sl hsl
        simp only [decide_eq_true_eq]
        rw [mem_mkSlots_day hsl]
        intro hcon
        exact hnd1 (hcon ▸ List.mem_map_of_mem _ hit')
      rw [hnil]
      simp only [List.length_nil, Nat.zero_add]
      exact ih hnd2 it hit'

/-! ### Run-chunking lemmas -/

theorem chunkRuns_flatten : ∀ l : List Nat, (chunkRuns l).flatten = l := by
  intro l
  induction l with
  | nil => rfl
  | cons x xs ih =>
    simp only [chunkRuns]
    rcases h : chunkRuns xs with _ | ⟨r, rest⟩
    · rw [h] at ih
      simp only [List.flatten_nil] at ih
      simp [← ih]
    · rcases r with _ | ⟨y, ys⟩
      · rw [h] at ih
        simp only [List.flatten_cons, List.nil_append] at ih
        simp [List.flatten_cons, ih]
      · rw [h] at ih
        by_cases hy : y = x + 1
        · simp only [if_pos hy, List.flatten_cons] at ih ⊢
          simp [ih]
        · simp only [if_neg hy, List.flatten_cons] at ih ⊢
          simp [ih]

theorem chunkRuns_ne_nil : ∀ l : List Nat, ∀ r ∈ chunkRuns l, r ≠ [] := by
  intro l
  induction l with
  | nil => intro r hr; simp [chunkRuns] at hr
  | cons x xs ih =>
    intro r hr
    simp only [chunkRuns] at hr
    rcases h : chunkRuns xs with _ | ⟨r0, rest⟩
    · rw [h] at hr
      simp only [List.mem_singleton] at hr
      subst hr; simp
    · rcases r0 with _ | ⟨y, ys⟩
      · exact absurd rfl (ih [] (h ▸ List.mem_cons_self _ _))
      · rw [h] at hr
        by_cases hy : y = x + 1
        · simp only [if_pos hy] at hr
          rcases List.mem_cons.mp hr with rfl | hr'
          · simp
          · exact ih _ (h ▸ List.mem_cons_of_mem _ hr')
        · simp only [if_neg hy] at hr
          rcases List.mem_cons.mp hr with rfl | hr'
          · simp
          · exact ih _ (h ▸ hr')

theorem chunkRuns_chain : ∀ l : List Nat, ∀ r ∈ chunkRuns l,
    r.Chain' (fun a b => b = a + 1) := by
  intro l
  induction l with
  | nil => intro r hr; simp [chunkRuns] at hr
  | cons x xs ih =>
    intro r hr
    simp only [chunkRuns] at hr
    rcases h : chunkRuns xs with _ | ⟨r0, rest⟩
    · rw [h] at hr
      simp only [List.mem_singleton] at hr
      subst hr
      exact List.chain'_singleton x
    · rcases r0 with _ | ⟨y, ys⟩
      · exact absurd rfl (chunkRuns_ne_nil xs [] (h ▸ List.mem_cons_self _ _))
      · rw [h] at hr
        by_cases hy : y = x + 1
        · simp only [if_pos hy] at hr
          rcases List.mem_cons.mp hr with rfl | hr'
          · rw [List.chain'_cons]
            exact ⟨hy, ih _ (h ▸ List.mem_cons_self _ _)⟩
          · exact ih _ (h ▸ List.mem_cons_of_mem _ hr')
        · simp only [if_neg hy] at hr
          rcases List.mem_cons.mp hr with rfl | hr'
          · exact List.chain'_singleton x
          · exact ih _ (h ▸ hr')

theorem chunkRuns_cons_shape (x : Nat) (xs : List Nat) :
    ∃ t rest, chunkRuns (x :: xs) = (x :: t) :: rest := by
  simp only [chunkRuns]
  rcases h : chunkRuns xs with _ | ⟨r0, rest⟩
  · exact ⟨[], [], rfl⟩
  · rcases r0 with _ | ⟨y, ys⟩
    · exact ⟨[], [] :: rest, rfl⟩
    · by_cases hy : y = x + 1
      · exact ⟨y :: ys, rest, by simp [if_pos hy]⟩
      · exact ⟨[], (y :: ys) :: rest, by simp [if_neg hy]⟩

/-- Maximality of the chunked runs: between two successive runs there is a
gap of at least one index (so no two runs could be merged). -/
theorem chunkRuns_gap : ∀ l : List Nat, l.Chain' (fun a b => a < b) →
    (chunkRuns l).Chain' (fun r s => r.getLastD 0 + 1 < s.headD 0) := by
  intro l
  induction l with
  | nil => simp [chunkRuns]
  | cons x xs ih =>
    intro h
    have hxs : xs.Chain' (fun a b => a < b) := h.tail
    have ih' := ih hxs
    simp only [chunkRuns]
    rcases hc : chunkRuns xs with _ | ⟨r0, rest⟩
    · exact List.chain'_singleton _
    · rcases r0 with _ | ⟨y, ys⟩
      · exact absurd rfl (chunkRuns_ne_nil xs [] (hc ▸ List.mem_cons_self _ _))
      · have hflat := chunkRuns_flatten xs
        rw [hc] at hflat ih'
        have hxsform : xs = y :: (ys ++ rest.flatten) := by
          rw [← hflat]
          simp [List.flatten_cons]
        have hxy : x < y := by
          rw [hxsform] at h
          exact (List.chain'_cons.mp h).1
        by_cases hy : y = x + 1
        · simp only [if_pos hy]
          rcases rest with _ | ⟨s, rest'⟩
          · exact List.chain'_singleton _
          · rw [List.chain'_cons]
            refine ⟨?_, (List.chain'_cons.mp ih').2⟩
            have hrel := (List.chain'_cons.mp ih').1
            have hlast : (x :: y :: ys).getLastD 0 = (y :: ys).getLastD 0 := by
              rw [List.getLastD_eq_getLast?, List.getLastD_eq_getLast?,
                List.getLast?_cons_cons]
            rw [hlast]
            exact hrel
        · simp only [if_neg hy]
          rw [List.chain'_cons]
          constructor
          · simp only [List.getLastD_eq_getLast?, List.getLast?_singleton,
              Option.getD_some, List.headD_cons]
            omega
          · exact ih'

/-! ### Occurrence-index lemmas -/

theorem pairwise_fst_lt_enum {α : Type} (l : List α) :
    List.Pairwise (fun p q : Nat × α => p.1 < q.1) l.enum := by
  have h := List.pairwise_lt_range' 0 l.length 1
  rw [← List.enumFrom_map_fst 0 l, List.pairwise_map] at h
  exact h

theorem indicesOf_chain (s : String) (vals : List String) :
    (indicesOf s vals).Chain' (fun a b => a < b) := by
  rw [List.chain'_iff_pairwise]
  unfold indicesOf
  rw [List.pairwise_map]
  exact List.Pairwise.sublist (List.filter_sublist _) (pairwise_fst_lt_enum vals)

theorem mem_indicesOf {s : String} {vals : List String} {i : Nat} :
    i ∈ indicesOf s vals ↔ i < vals.length ∧ vals.getD i "" = s := by
  unfold indicesOf
  simp only [List.mem_map, List.mem_filter, decide_eq_true_eq]
  constructor
  · rintro ⟨p, ⟨hp, hps⟩, rfl⟩
    have hg := List.mem_enum_iff_getElem?.mp hp
    obtain ⟨hlt, hval⟩ := List.getElem?_eq_some.mp hg
    refine ⟨hlt, ?_⟩
    rw [List.getD_eq_getElem?_getD, hg]
    exact hps
  · rintro ⟨hlen, hg⟩
    refine ⟨(i, vals.getD i ""), ⟨?_, hg⟩, rfl⟩
    apply List.mem_enum_iff_getElem?.mpr
    show vals[i]? = some (vals.getD i "")
    rw [List.getElem?_eq_getElem hlen, List.getD_eq_getElem?_getD,
      List.getElem?_eq_getElem hlen]
    rfl

/-! ### Response-counting lemmas -/

theorem sum_day_length {α : Type} (dayOf : α → Day) (mk : α → Entry) :
    ∀ l : List α,
      (∑ d : Day, (l.filterMap
        (fun x => if dayOf x = d then some (mk x) else none)).length) =
      l.length := by
  intro l
  induction l with
  | nil => simp
  | cons x t ih =>
    have hsplit : ∀ d : Day,
        ((x :: t).filterMap
          (fun y => if dayOf y = d then some (mk y) else none)).length =
        (if dayOf x = d then 1 else 0) +
        (t.filterMap (fun y => if dayOf y = d then some (mk y) else none)).length := by
      intro d
      rw [List.filterMap_cons]
      by_cases h : dayOf x = d <;> simp [h, Nat.add_comm]
    calc (∑ d : Day, ((x :: t).filterMap
            (fun y => if dayOf y = d then some (mk y) else none)).length)
        = ∑ d : Day, ((if dayOf x = d then 1 else 0) +
            (t.filterMap (fun y => if dayOf y = d then some (mk y) else none)).length) :=
          Finset.sum_congr rfl (fun d _ => hsplit d)
      _ = (∑ d : Day, if dayOf x = d then 1 else 0) +
          ∑ d : Day, (t.filterMap (fun y => if dayOf y = d then some (mk y) else none)).length :=
          Finset.sum_add_distrib
      _ = 1 + t.length := by
          rw [ih, Finset.sum_ite_eq]
          simp
      _ = (x :: t).length := by simp [Nat.add_comm]

theorem sum_day_countP {α : Type} (dayOf : α → Day) (mk : α → Entry)
    (q : Entry → Bool) :
    ∀ l : List α,
      (∑ d : Day, ((l.filterMap
        (fun x => if dayOf x = d then some (mk x) else none)).countP q)) =
      l.countP (fun x => q (mk x)) := by
  intro l
  induction l with
  | nil => simp
  | cons x t ih =>
    have hsplit : ∀ d : Day,
        ((x :: t).filterMap
          (fun y => if dayOf y = d then some (mk y) else none)).countP q =
        (if dayOf x = d then (if q (mk x) then 1 else 0) else 0) +
        (t.filterMap (fun y => if dayOf y = d then some (mk y) else none)).countP q := by
      intro d
      rw [List.filterMap_cons]
      by_cases h : dayOf x = d
      · simp only [h, if_pos rfl, List.countP_cons]
        by_cases hq : q (mk x) <;> simp [hq, Nat.add_comm]
      · simp [h]
    calc (∑ d : Day, ((x :: t).filterMap
            (fun y => if dayOf y = d then some (mk y) else none)).countP q)
        = ∑ d : Day, ((if dayOf x = d then (if q (mk x) then 1 else 0) else 0) +
            (t.filterMap (fun y => if dayOf y = d then some (mk y) else none)).countP q) :=
          Finset.sum_congr rfl (fun d _ => hsplit d)
      _ = (∑ d : Day, if dayOf x = d then (if q (mk x) then 1 else 0) else 0) +
          t.countP (fun y => q (mk y)) := by rw [Finset.sum_add_distrib, ih]
      _ = (if q (mk x) then 1 else 0) + t.countP (fun y => q (mk y)) := by
          rw [Finset.sum_ite_eq]
          simp
      _ = (x :: t).countP (fun y => q (mk y)) := by
          rw [List.countP_cons]
          exact Nat.add_comm _ _

theorem countP_zip_snd {α β : Type} (q : β → Bool) :
    ∀ (l₁ : List α) (l₂ : List β), l₁.length = l₂.length →
      (l₁.zip l₂).countP (fun p => q p.2) = l₂.countP q := by
  intro l₁
  induction l₁ with
  | nil =>
    intro l₂ h
    cases l₂ with
    | nil => rfl
    | cons b t => simp at h
  | cons a t₁ ih =>
    intro l₂ h
    cases l₂ with
    | nil => simp at h
    | cons b t₂ =>
      simp only [List.zip_cons_cons, List.countP_cons]
      rw [ih t₂ (by simpa using h)]

theorem string_beq_eq_decide (v s : String) : (v == s) = decide (v = s) := by
  by_cases h : v = s <;> simp [h]


/-! ## Claim theorems -/

/-- C7 counterexample: the claim says the builder never assigns hour 12,
but app2's `get_time_slots` for a Monday with `start_hr = 9` and
`total_hours = 5` assigns the hours 9, 10, 11, 12, 14 — hour 12 IS used
as a slot start (the builder then skips 13, jumping to 14). -/
theorem claim7_counterexample :
    (get_time_slots2 [(Day.monday, 5, 9)]).map Slot.hour = [9, 10, 11, 12, 14] ∧
    12 ∈ (get_time_slots2 [(Day.monday, 5, 9)]).map Slot.hour := by
  constructor
  · rfl
  · decide

/-- C7 (amended): for every builder input (the day dictionaries, with
their distinct keys), (1) each listed day contributes exactly
`total_hours` slots in both builders; (2) app3's builder never assigns
hour 12; (3) app2's builder assigns hours that are never 13 provided the
day does not start at 13 (it assigns 12 and then jumps to 14); (4) each
day's first slot starts at `start_hr` (app3 shifting a start of 12 to
13). -/
theorem claim7_thm :
    (∀ (items : List (Day × Nat × Nat)),
      (items.map (fun it => it.1)).Nodup →
      ∀ it ∈ items,
        ((get_time_slots2 items).filter (fun sl => decide (sl.day = it.1))).length = it.2.1 ∧
        ((get_time_slots3 items).filter (fun sl => decide (sl.day = it.1))).length = it.2.1) ∧
    (∀ (items : List (Day × Nat × Nat)), ∀ sl ∈ get_time_slots3 items,
      sl.hour ≠ 12) ∧
    (∀ (s n : Nat), s ≠ 13 → ∀ h ∈ hoursFrom2 s n, h ≠ 13) ∧
    (∀ (s n : Nat), 0 < n → (hoursFrom2 s n).headD 0 = s ∧
      (hoursFrom3 s n).headD 0 = (if s = 12 then s + 1 else s)) := by
  refine ⟨?_, ?_, ?_, ?_⟩
  · intro items hnd it hit
    exact ⟨filter_day_flatMap hoursFrom2 (fun s n => length_hoursFrom2 n s)
        items hnd it hit,
      filter_day_flatMap hoursFrom3 (fun s n => length_hoursFrom3 n s)
        items hnd it hit⟩
  · intro items sl hsl
    rcases List.mem_flatMap.mp hsl with ⟨it, _, hsl'⟩
    exact hoursFrom3_ne_12 _ _ _ (mem_mkSlots_hour hsl')
  · intro s n hs h hmem
    exact hoursFrom2_ne_13 n s hs h hmem
  · intro s n hn
    exact ⟨head_hoursFrom2 s n hn, head_hoursFrom3 s n hn⟩

/-- C7 witness: the amended theorem at concrete inputs. -/
theorem claim7_witness :
    ((get_time_slots2 [(Day.monday, 3, 9)]).filter
      (fun sl => decide (sl.day = Day.monday))).length = 3 ∧
    (∀ sl ∈ get_time_slots3 [(Day.monday, 3, 11)], sl.hour ≠ 12) ∧
    (∀ h ∈ hoursFrom2 9 5, h ≠ 13) :=
  ⟨(claim7_thm.1 [(Day.monday, 3, 9)] (by decide) (Day.monday, 3, 9)
      (List.mem_singleton.mpr rfl)).1,
   claim7_thm.2.1 [(Day.monday, 3, 11)],
   claim7_thm.2.2.1 9 5 (by decide)⟩

/-- C5 counterexample: app3 with a slot surplus and free padding
disallowed produces NO capacity error — it proceeds to a model (2 slots,
1 required, `allow_free = false`, result is a usable context), where the
claim demands a capacity-mismatch failure. -/
theorem claim5_counterexample :
    (app3Generate [⟨Day.monday, 9, 2⟩] [⟨"A", 1, 1, 9, 17⟩] false).isOk = true ∧
    totalRequired3 [⟨"A", 1, 1, 9, 17⟩] < totalAvail3 [⟨Day.monday, 9, 2⟩] ∧
    app3Feasible [] [] (app3Ok [⟨Day.monday, 9, 2⟩] [⟨"A", 1, 1, 9, 17⟩] false)
      [[0]] = true := by
  refine ⟨?_, ?_, ?_⟩ <;> decide

/-- C5 (amended): app2 produces a capacity-mismatch error exactly on
surplus with padding disallowed and an under-capacity error exactly on
deficit, both before any solving; app3 NEVER produces a
capacity-mismatch error (a surplus with padding disallowed proceeds
silently) and produces the under-capacity error exactly on deficit. -/
theorem claim5_thm :
    (∀ (wds : List WorkingDay) (courses : List Course) (allowFree : Bool)
        (a r : Nat),
      (app2Generate wds courses allowFree = .error (.capacityMismatch a r) ↔
        courses ≠ [] ∧ wds ≠ [] ∧ a = totalAvail2 wds ∧
        r = totalRequired courses ∧ r < a ∧ allowFree = false) ∧
      (app2Generate wds courses allowFree = .error (.underCapacity a r) ↔
        courses ≠ [] ∧ wds ≠ [] ∧ a = totalAvail2 wds ∧
        r = totalRequired courses ∧ a < r)) ∧
    (∀ (wds : List WorkingDay) (courses : List Course) (allowFree : Bool)
        (a r : Nat),
      app3Generate wds courses allowFree ≠ .error (.capacityMismatch a r) ∧
      (app3Generate wds courses allowFree = .error (.underCapacity a r) ↔
        courses ≠ [] ∧ wds ≠ [] ∧ a = totalAvail3 wds ∧
        r = totalRequired3 courses ∧ a < r)) := by
  constructor
  · intro wds courses allowFree a r
    have hA : (get_time_slots2 (buildDayItems wds)).length = totalAvail2 wds := rfl
    simp only [app2Generate]
    split_ifs with h1 h2 h3 h4 h5
    · simp [List.isEmpty_iff.mp h1]
    · simp [List.isEmpty_iff.mp h2, fun h => h1 (List.isEmpty_iff.mpr h)]
    · -- surplus, padding allowed: result is .ok, both errors impossible
      constructor <;> constructor
      · intro h
        exact absurd h (by simp)
      · rintro ⟨-, -, -, -, -, hfalse⟩
        rw [hfalse] at h4
        exact Bool.noConfusion h4
      · intro h
        exact absurd h (by simp)
      · rintro ⟨-, -, rfl, rfl, hlt⟩
        omega
    · -- surplus, padding disallowed: capacity-mismatch error
      constructor
      · simp only [Except.error.injEq, Err.capacityMismatch.injEq]
        constructor
        · rintro ⟨rfl, rfl⟩
          refine ⟨fun h => h1 (List.isEmpty_iff.mpr h),
            fun h => h2 (List.isEmpty_iff.mpr h), hA.symm, rfl, by omega, ?_⟩
          cases hf : allowFree
          · rfl
          · rw [hf] at h4
            exact absurd rfl h4
        · rintro ⟨-, -, rfl, rfl, -, -⟩
          exact ⟨hA, rfl⟩
      · simp only [Except.error.injEq]
        constructor
        · intro h
          exact absurd h (by simp)
        · rintro ⟨-, -, rfl, rfl, hlt⟩
          omega
    · -- deficit: under-capacity error
      constructor
      · simp only [Except.error.injEq]
        constructor
        · intro h
          exact absurd h (by simp)
        · rintro ⟨-, -, rfl, rfl, hlt, -⟩
          omega
      · simp only [Except.error.injEq, Err.underCapacity.injEq]
        constructor
        · rintro ⟨rfl, rfl⟩
          exact ⟨fun h => h1 (List.isEmpty_iff.mpr h),
            fun h => h2 (List.isEmpty_iff.mpr h), hA.symm, rfl, by omega⟩
        · rintro ⟨-, -, rfl, rfl, -⟩
          exact ⟨hA, rfl⟩
    · -- exact fit: result is .ok
      constructor <;> constructor
      · intro h
        exact absurd h (by simp)
      · rintro ⟨-, -, rfl, rfl, hlt, -⟩
        omega
      · intro h
        exact absurd h (by simp)
      · rintro ⟨-, -, rfl, rfl, hlt⟩
        omega
  · intro wds courses allowFree a r
    have hA : (get_time_slots3 (buildDayItems wds)).length = totalAvail3 wds := rfl
    have hR3 : ((courses.map toSubj).map (fun s => s.lectures * s.duration)).sum =
        totalRequired3 courses := by
      rw [List.map_map]
      rfl
    simp only [app3Generate]
    split_ifs with h1 h2 h3 h4
    · simp [List.isEmpty_iff.mp h1]
    · simp [List.isEmpty_iff.mp h2, fun h => h1 (List.isEmpty_iff.mpr h)]
    · -- deficit: under-capacity error
      refine ⟨by simp, ?_⟩
      simp only [Except.error.injEq, Err.underCapacity.injEq]
      constructor
      · rintro ⟨rfl, rfl⟩
        exact ⟨fun h => h1 (List.isEmpty_iff.mpr h),
          fun h => h2 (List.isEmpty_iff.mpr h), hA.symm, hR3, by omega⟩
      · rintro ⟨-, -, rfl, rfl, -⟩
        exact ⟨hA, hR3⟩

    · -- no deficit, Free injected: result is .ok or a per-subject error,
      -- never a capacity error
      refine ⟨by split <;> simp, ?_, ?_⟩
      · intro h
        exfalso
        revert h
        split <;> simp
      · rintro ⟨-, -, rfl, rfl, hlt⟩
        exfalso
        omega
    · -- no deficit, no Free injection: same shape
      refine ⟨by split <;> simp, ?_, ?_⟩
      · intro h
        exfalso
        revert h
        split <;> simp
      · rintro ⟨-, -, rfl, rfl, hlt⟩
        exfalso
        omega

/-- C5 witness: both app2 capacity errors fire at concrete inputs. -/
theorem claim5_witness :
    app2Generate [⟨Day.monday, 9, 2⟩] [⟨"A", 1, 1, 9, 17⟩] false =
      .error (.capacityMismatch 2 1) ∧
    app2Generate [⟨Day.monday, 9, 1⟩] [⟨"A", 2, 1, 9, 17⟩] true =
      .error (.underCapacity 1 2) :=
  ⟨((claim5_thm.1 [⟨Day.monday, 9, 2⟩] [⟨"A", 1, 1, 9, 17⟩] false 2 1).1).mpr
      ⟨by decide, by decide, by decide, by decide, by decide, rfl⟩,
   ((claim5_thm.1 [⟨Day.monday, 9, 1⟩] [⟨"A", 2, 1, 9, 17⟩] true 1 2).2).mpr
      ⟨by decide, by decide, by decide, by decide, by decide⟩⟩

/-- C6: when there is a slot surplus and padding is allowed, both engines
append exactly one synthetic Free subject: its required count is exactly
the surplus, its duration 1, its window `[0, 24)`, and its name is fresh
against every supplied course name, of the shape `"Free"` or
`"Free_" + str(k)`. -/
theorem claim6_thm :
    ∀ (wds : List WorkingDay) (courses : List Course),
      courses ≠ [] → wds ≠ [] →
      totalRequired courses < totalAvail2 wds →
      (app2Generate wds courses true =
        .ok ⟨requiredMap courses ++
              [(freeName (dkeys (requiredMap courses)),
                totalAvail2 wds - totalRequired courses)],
             infoMap courses ++
              [(freeName (dkeys (requiredMap courses)), ⟨0, 24, 1⟩)],
             multiMap courses,
             get_time_slots2 (buildDayItems wds),
             dkeys (requiredMap courses) ++
              [freeName (dkeys (requiredMap courses))]⟩) ∧
      freeName (dkeys (requiredMap courses)) ∉ courses.map Course.cname ∧
      (freeName (dkeys (requiredMap courses)) = "Free" ∨
        ∃ k, 1 ≤ k ∧ freeName (dkeys (requiredMap courses)) = candFree k) ∧
      (totalRequired3 courses < totalAvail3 wds →
        ∀ ctx, app3Generate wds courses true = .ok ctx →
          ctx.subjects = courses.map toSubj ++
            [⟨freeName (courses.map Course.cname),
              totalAvail3 wds - totalRequired3 courses, 1, 0, 24⟩] ∧
          freeName (courses.map Course.cname) ∉ courses.map Course.cname) := by
  intro wds courses hc hw hlt
  have hce : ¬(courses.isEmpty = true) := fun h => hc (List.isEmpty_iff.mp h)
  have hwe : ¬(wds.isEmpty = true) := fun h => hw (List.isEmpty_iff.mp h)
  have hfresh : freeName (dkeys (requiredMap courses)) ∉ dkeys (requiredMap courses) :=
    freeName_fresh _
  have hfreshI : freeName (dkeys (requiredMap courses)) ∉ dkeys (infoMap courses) := by
    intro hmem
    exact hfresh ((mem_dkeys_requiredMap courses _).mpr
      ((mem_dkeys_infoMap courses _).mp hmem))
  refine ⟨?_, ?_, freeName_shape _, ?_⟩
  · simp only [app2Generate, if_neg hce, if_neg hwe]
    rw [if_pos (show totalRequired courses <
        (get_time_slots2 (buildDayItems wds)).length from hlt)]
    rw [if_pos trivial]
    rw [dinsert_fresh _ _ _ hfresh, dinsert_fresh _ _ _ hfreshI,
      dkeys_append_single]
    rfl
  · intro hmem
    exact hfresh ((mem_dkeys_requiredMap courses _).mpr hmem)
  · intro h3lt ctx hctx
    have hA3 : (get_time_slots3 (buildDayItems wds)).length = totalAvail3 wds := rfl
    have hR3 : ((courses.map toSubj).map (fun s => s.lectures * s.duration)).sum =
        totalRequired3 courses := by
      rw [List.map_map]
      rfl
    have hnames : (courses.map toSubj).map (fun s => s.sname) =
        courses.map Course.cname := by
      rw [List.map_map]
      rfl
    simp only [app3Generate, if_neg hce, if_neg hwe] at hctx
    rw [if_neg (show ¬((get_time_slots3 (buildDayItems wds)).length <
        ((courses.map toSubj).map (fun s => s.lectures * s.duration)).sum)
        from by omega)] at hctx
    rw [if_pos (show ((decide (((courses.map toSubj).map
        (fun s => s.lectures * s.duration)).sum <
        (get_time_slots3 (buildDayItems wds)).length) && true) = true)
        from by
          simp only [Bool.and_true, decide_eq_true_eq]
          omega)] at hctx
    revert hctx
    split
    · intro h
      exact absurd h (by simp)
    · intro h
      injection h with h2
      subst h2
      constructor
      · show (courses.map toSubj) ++ _ = _
        rw [hnames, hR3, hA3]
      · exact freeName_fresh _

/-- C6 witness: the Free-injection theorem at a concrete input whose only
course is itself named "Free" (so the injected name is disambiguated). -/
theorem claim6_witness :
    freeName (dkeys (requiredMap [⟨"Free", 1, 1, 9, 17⟩])) ∉
      [(⟨"Free", 1, 1, 9, 17⟩ : Course)].map Course.cname ∧
    (app2Generate [⟨Day.monday, 9, 3⟩] [⟨"Free", 1, 1, 9, 17⟩] true).isOk = true :=
  ⟨(claim6_thm [⟨Day.monday, 9, 3⟩] [⟨"Free", 1, 1, 9, 17⟩]
      (by decide) (by decide) (by decide)).2.1,
   by
    rw [(claim6_thm [⟨Day.monday, 9, 3⟩] [⟨"Free", 1, 1, 9, 17⟩]
      (by decide) (by decide) (by decide)).1]
    rfl⟩

/-- A `find?` over the reversed list ignores an erased middle element
when a later element already matches or the erased one does not match. -/
theorem find?_erase_middle {α : Type} (p : α → Bool) (l₁ l₂ : List α)
    (c : α) (h : (∃ d ∈ l₂, p d = true) ∨ p c = false) :
    (l₁ ++ c :: l₂).reverse.find? p = (l₁ ++ l₂).reverse.find? p := by
  rw [List.reverse_append, List.reverse_cons, List.reverse_append,
    List.find?_append, List.find?_append, List.find?_append]
  rcases h with ⟨d, hd, hpd⟩ | hpc
  · have hsome : ((l₂.reverse.find? p).isSome) = true :=
      List.find?_isSome.mpr ⟨d, List.mem_reverse.mpr hd, hpd⟩
    rcases hfd : l₂.reverse.find? p with _ | d'
    · rw [hfd] at hsome
      simp at hsome
    · rfl
  · have hnone : [c].find? p = none := by
      simp [List.find?, hpc]
    rw [hnone]
    rcases hfd : l₂.reverse.find? p with _ | d' <;> rfl

/-- C10 counterexample: with the duplicate-named courses
`[A (3 sessions, duration 2... actually duration 2, 1 session),
A (3 sessions, duration 1)]`, the last course has duration 1, yet the
engine's multi-slot map retains the EARLIER duplicate's duration 2 — the
name's effective duration constraint is not derived solely from the last
course with that name. -/
theorem claim10_counterexample :
    multiMap [⟨"A", 1, 2, 8, 12⟩, ⟨"A", 3, 1, 10, 12⟩] = [("A", 2)] ∧
    dlookup "A" (requiredMap [⟨"A", 1, 2, 8, 12⟩, ⟨"A", 3, 1, 10, 12⟩]) =
      some 3 ∧
    dlookup "A" (infoMap [⟨"A", 1, 2, 8, 12⟩, ⟨"A", 3, 1, 10, 12⟩]) =
      some ⟨10, 12, 1⟩ ∧
    (⟨"A", 3, 1, 10, 12⟩ : Course).duration = 1 ∧ (1 : Nat) ≠ 2 := by
  refine ⟨?_, ?_, ?_, ?_, ?_⟩ <;> decide

/-- C10 (amended): `subject_required_slots[nm]` and `subject_info[nm]`
come solely from the last course named `nm`, and an earlier duplicate
contributes nothing to the dicts or to `total_required`; but
`multi_slot_subjects[nm]` keeps the last duration exceeding 1 among the
duplicates, so an earlier duplicate's multi-slot duration can survive a
later single-slot duplicate. -/
theorem claim10_thm :
    (∀ (courses : List Course) (nm : String),
      dlookup nm (requiredMap courses) =
        (courses.reverse.find? (fun c => decide (c.cname = nm))).map
          (fun c => c.lectureno * c.duration) ∧
      dlookup nm (infoMap courses) =
        (courses.reverse.find? (fun c => decide (c.cname = nm))).map
          (fun c => (⟨c.start_hr, c.end_hr, c.duration⟩ : SubjInfo)) ∧
      dlookup nm (multiMap courses) =
        (courses.reverse.find?
          (fun c => decide (1 < c.duration) && decide (c.cname = nm))).map
          (fun c => c.duration)) ∧
    (∀ (l₁ l₂ : List Course) (c : Course),
      c.cname ∈ l₂.map Course.cname →
      (∀ nm, dlookup nm (requiredMap (l₁ ++ c :: l₂)) =
        dlookup nm (requiredMap (l₁ ++ l₂))) ∧
      (∀ nm, dlookup nm (infoMap (l₁ ++ c :: l₂)) =
        dlookup nm (infoMap (l₁ ++ l₂))) ∧
      totalRequired (l₁ ++ c :: l₂) = totalRequired (l₁ ++ l₂)) := by
  constructor
  · intro courses nm
    exact ⟨dlookup_requiredMap courses nm, dlookup_infoMap courses nm,
      dlookup_multiMap courses nm⟩
  · intro l₁ l₂ c hmem
    have hcases : ∀ nm : String,
        (∃ d ∈ l₂, (fun c' : Course => decide (c'.cname = nm)) d = true) ∨
        (fun c' : Course => decide (c'.cname = nm)) c = false := by
      intro nm
      by_cases hnm : c.cname = nm
      · left
        rcases List.mem_map.mp hmem with ⟨d, hd, hdc⟩
        exact ⟨d, hd, by simp [hdc, hnm]⟩
      · right
        simp [hnm]
    have hlook : ∀ nm, dlookup nm (requiredMap (l₁ ++ c :: l₂)) =
        dlookup nm (requiredMap (l₁ ++ l₂)) := by
      intro nm
      rw [dlookup_requiredMap, dlookup_requiredMap,
        find?_erase_middle _ _ _ _ (hcases nm)]
    refine ⟨hlook, ?_, ?_⟩
    · intro nm
      rw [dlookup_infoMap, dlookup_infoMap,
        find?_erase_middle _ _ _ _ (hcases nm)]
    · unfold totalRequired
      rw [sum_values_eq _ (nodup_dkeys_requiredMap _),
        sum_values_eq _ (nodup_dkeys_requiredMap _)]
      have hsets : (dkeys (requiredMap (l₁ ++ c :: l₂))).toFinset =
          (dkeys (requiredMap (l₁ ++ l₂))).toFinset := by
        ext x
        simp only [List.mem_toFinset, mem_dkeys_requiredMap, List.map_append,
          List.map_cons, List.mem_append, List.mem_cons]
        constructor
        · rintro (h1 | (rfl | h2))
          · exact Or.inl h1
          · exact Or.inr hmem
          · exact Or.inr h2
        · rintro (h1 | h2)
          · exact Or.inl h1
          · exact Or.inr (Or.inr h2)
      rw [hsets]
      apply Finset.sum_congr rfl
      intro x _
      rw [hlook x]

/-- C10 witness: the amended theorem at a concrete duplicate-name list. -/
theorem claim10_witness :
    totalRequired ([] ++ (⟨"A", 1, 2, 8, 12⟩ : Course) ::
        [⟨"B", 1, 1, 9, 17⟩, ⟨"A", 3, 1, 10, 12⟩]) =
      totalRequired ([] ++ [⟨"B", 1, 1, 9, 17⟩, ⟨"A", 3, 1, 10, 12⟩]) ∧
    dlookup "A" (requiredMap [⟨"A", 1, 2, 8, 12⟩, ⟨"B", 1, 1, 9, 17⟩,
        ⟨"A", 3, 1, 10, 12⟩]) =
      (([⟨"A", 1, 2, 8, 12⟩, ⟨"B", 1, 1, 9, 17⟩,
          (⟨"A", 3, 1, 10, 12⟩ : Course)].reverse.find?
        (fun c => decide (c.cname = "A"))).map
        (fun c => c.lectureno * c.duration)) :=
  ⟨(claim10_thm.2 [] [⟨"B", 1, 1, 9, 17⟩, ⟨"A", 3, 1, 10, 12⟩]
      ⟨"A", 1, 2, 8, 12⟩ (by decide)).2.2,
   (claim10_thm.1 [⟨"A", 1, 2, 8, 12⟩, ⟨"B", 1, 1, 9, 17⟩,
      ⟨"A", 3, 1, 10, 12⟩] "A").1⟩

/-- If a subject of the model has positive lectures, a duration of at
least one slot, and a cached allowed-start list that is forced empty
(its window misses every slot, and it is the only subject with its
name), then app3's pre-search check finds an offending subject. -/
theorem app3_find_unschedulable (slots : List Slot) (subs : List Subj)
    (c : Course) (hmem : toSubj c ∈ subs)
    (huniq : ∀ d ∈ subs, d.sname = c.cname → d = toSubj c)
    (hlect : 0 < c.lectureno) (hdur : 0 < c.duration)
    (hwin : ∀ sl ∈ slots, ¬(c.start_hr ≤ sl.hour ∧ sl.hour < c.end_hr)) :
    ∃ su, subs.find? (fun s =>
      ((dlookup s.sname (allowedCache slots subs)).getD []).isEmpty &&
      decide (0 < s.lectures)) = some su := by
  have hempty : allowedStarts slots (toSubj c) = [] := by
    rw [allowedStarts, List.filter_eq_nil_iff]
    intro s hs hcond
    have hs' : s < slots.length := List.mem_range.mp hs
    simp only [Bool.and_eq_true, List.all_eq_true, decide_eq_true_eq] at hcond
    obtain ⟨⟨hfit, hday⟩, hall⟩ := hcond
    have hsin : s ∈ List.range' s (toSubj c).duration :=
      List.mem_range'_1.mpr ⟨le_refl s, by
        show s < s + c.duration
        omega⟩
    obtain ⟨hlo, hhi⟩ := hall s hsin
    have hmems : slots.getD s default ∈ slots := by
      rw [List.getD_eq_getElem?_getD, List.getElem?_eq_getElem hs']
      exact List.getElem_mem hs'
    exact hwin _ hmems ⟨hlo, hhi⟩
  have hpred : (((dlookup (toSubj c).sname (allowedCache slots subs)).getD []).isEmpty &&
      decide (0 < (toSubj c).lectures)) = true := by
    rw [Bool.and_eq_true]
    refine ⟨?_, by simpa using hlect⟩
    rw [dlookup_allowedCache]
    rcases hf : subs.reverse.find?
        (fun s => decide (s.sname = (toSubj c).sname)) with _ | d
    · rw [hf]
      rfl
    · have hd1 : d.sname = c.cname := by simpa using List.find?_some hf
      have hd2 : d ∈ subs := List.mem_reverse.mp (List.mem_of_find?_eq_some hf)
      have hd3 : d = toSubj c := huniq d hd2 hd1
      subst hd3
      rw [hf]
      simp [hempty]
  have hsome : (subs.find? (fun s =>
      ((dlookup s.sname (allowedCache slots subs)).getD []).isEmpty &&
      decide (0 < s.lectures))).isSome = true :=
    List.find?_isSome.mpr ⟨toSubj c, hmem, hpred⟩
  rcases h : subs.find? (fun s =>
      ((dlookup s.sname (allowedCache slots subs)).getD []).isEmpty &&
      decide (0 < s.lectures)) with _ | su
  · rw [h] at hsome
    simp at hsome
  · exact ⟨su, h⟩

/-- C8 counterexample: app2 has no per-subject pre-check.  With one
Monday slot at hour 9 and one course whose window `[10, 11)` intersects
no slot, app2 reaches the solver (its pre-checks succeed) and the engine
reports the GENERIC infeasibility error, not a per-subject error. -/
theorem claim8_counterexample :
    app2Run [⟨Day.monday, 9, 1⟩] [] [] [⟨"A", 1, 1, 10, 11⟩] true =
      .error .infeasible ∧
    (app2Generate [⟨Day.monday, 9, 1⟩] [⟨"A", 1, 1, 10, 11⟩] true).isOk = true ∧
    (∀ sl ∈ (app2Ok [⟨Day.monday, 9, 1⟩] [⟨"A", 1, 1, 10, 11⟩] true).slots,
      ¬((10 : Nat) ≤ sl.hour ∧ sl.hour < 11)) := by
  refine ⟨rfl, by decide, by decide⟩

/-- C8 (amended): app3 (and only app3) performs the pre-search
per-subject check: whenever the earlier validation and capacity checks
pass, courses have distinct names and some course with at least one
lecture of positive duration has an availability window meeting no
generated slot, `generate_timetable_ortools` stops before building the
model with a per-subject `subjectUnschedulable` error. -/
theorem claim8_thm :
    ∀ (wds : List WorkingDay) (courses : List Course) (allowFree : Bool)
      (c : Course),
      courses ≠ [] → wds ≠ [] → (courses.map Course.cname).Nodup →
      c ∈ courses → 0 < c.lectureno → 0 < c.duration →
      ¬(totalAvail3 wds < totalRequired3 courses) →
      (∀ sl ∈ get_time_slots3 (buildDayItems wds),
        ¬(c.start_hr ≤ sl.hour ∧ sl.hour < c.end_hr)) →
      ∃ nm, app3Generate wds courses allowFree =
        .error (.subjectUnschedulable nm) := by
  intro wds courses allowFree c hcne hwne hnd hcmem hlect hdur hcap hwin
  have hce : ¬(courses.isEmpty = true) := fun h => hcne (List.isEmpty_iff.mp h)
  have hwe : ¬(wds.isEmpty = true) := fun h => hwne (List.isEmpty_iff.mp h)
  have hR3 : ((courses.map toSubj).map (fun s => s.lectures * s.duration)).sum =
      totalRequired3 courses := by
    rw [List.map_map]
    rfl
  have hA3 : (get_time_slots3 (buildDayItems wds)).length = totalAvail3 wds := rfl
  have huniq0 : ∀ d ∈ courses.map toSubj, d.sname = c.cname → d = toSubj c := by
    intro d hd hname
    rcases List.mem_map.mp hd with ⟨c2, hc2, rfl⟩
    have : c2 = c := List.inj_on_of_nodup_map hnd hc2 hcmem hname
    rw [this]
  have hmem0 : toSubj c ∈ courses.map toSubj := List.mem_map_of_mem _ hcmem
  simp only [app3Generate, if_neg hce, if_neg hwe]
  rw [if_neg (show ¬((get_time_slots3 (buildDayItems wds)).length <
      ((courses.map toSubj).map (fun s => s.lectures * s.duration)).sum)
      from by omega)]
  by_cases hco : ((decide (((courses.map toSubj).map
      (fun s => s.lectures * s.duration)).sum <
      (get_time_slots3 (buildDayItems wds)).length)) && allowFree) = true
  · rw [if_pos hco]
    have hfr : freeName ((courses.map toSubj).map (fun s => s.sname)) ≠
        c.cname := by
      intro hcon
      apply freeName_fresh ((courses.map toSubj).map (fun s => s.sname))
      rw [hcon, show ((courses.map toSubj).map (fun s => s.sname)) =
        courses.map Course.cname from by rw [List.map_map]; rfl]
      exact List.mem_map_of_mem _ hcmem
    obtain ⟨su, hsu⟩ := app3_find_unschedulable
      (get_time_slots3 (buildDayItems wds))
      (courses.map toSubj ++
        [⟨freeName ((courses.map toSubj).map (fun s => s.sname)),
          (get_time_slots3 (buildDayItems wds)).length -
            ((courses.map toSubj).map (fun s => s.lectures * s.duration)).sum,
          1, 0, 24⟩])
      c (List.mem_append_left _ hmem0)
      (by
        intro d hd hname
        rcases List.mem_append.mp hd with hd0 | hd1
        · exact huniq0 d hd0 hname
        · exfalso
          rw [List.mem_singleton] at hd1
          subst hd1
          exact hfr hname)
      hlect hdur hwin
    rw [hsu]
    exact ⟨su.sname, rfl⟩
  · rw [if_neg hco]
    obtain ⟨su, hsu⟩ := app3_find_unschedulable
      (get_time_slots3 (buildDayItems wds)) (courses.map toSubj)
      c hmem0 huniq0 hlect hdur hwin
    rw [hsu]
    exact ⟨su.sname, rfl⟩

/-- C8 witness: the amended theorem at a concrete input (one Monday slot
at hour 9, one course with window `[10, 11)`): app3 reports the
per-subject error. -/
theorem claim8_witness :
    ∃ nm, app3Generate [⟨Day.monday, 9, 1⟩] [⟨"A", 1, 1, 10, 11⟩] true =
      .error (.subjectUnschedulable nm) :=
  claim8_thm [⟨Day.monday, 9, 1⟩] [⟨"A", 1, 1, 10, 11⟩] true
    ⟨"A", 1, 1, 10, 11⟩ (by decide) (by decide) (by decide) (by decide)
    (by decide) (by decide) (by decide) (by decide)

/-! ### Unpacking the solver contracts -/

theorem app2Valid_unpack {cons noncons : List String} {ctx : App2Ctx}
    {vals : List String} (h : app2Valid cons noncons ctx vals = true) :
    vals.length = ctx.slots.length ∧
    (∀ v ∈ vals, v ∈ ctx.names) ∧
    every_subject_constraint ctx.required vals = true ∧
    multi_slot_constraint ctx.multi ctx.slots vals = true ∧
    teacher_availability_constraint ctx.info ctx.slots vals = true ∧
    user_consecutive_pair_constraint cons vals = true ∧
    user_non_consecutive_pair_constraint noncons vals = true := by
  unfold app2Valid at h
  simp only [Bool.and_eq_true, decide_eq_true_eq, List.all_eq_true] at h
  tauto

theorem app3Feasible_unpack {cons noncons : List String} {ctx : App3Ctx}
    {starts : List (List Nat)}
    (h : app3Feasible cons noncons ctx starts = true) :
    starts.length = ctx.subjects.length ∧
    (∀ p ∈ ctx.subjects.zip starts, p.2.length = p.1.lectures ∧
      ∀ s ∈ p.2, s ∈ (dlookup p.1.sname ctx.cache).getD []) ∧
    noOverlapOK (occList ctx.subjects starts) = true ∧
    (∀ a b, pairActive cons = some (a, b) →
      consOK3 a b (occList ctx.subjects starts) = true) ∧
    (∀ a b, pairActive noncons = some (a, b) →
      nonconsOK3 a b (occList ctx.subjects starts) = true) := by
  unfold app3Feasible at h
  simp only [Bool.and_eq_true, decide_eq_true_eq, List.all_eq_true] at h
  obtain ⟨⟨⟨⟨h1, h2⟩, h3⟩, h4⟩, h5⟩ := h
  refine ⟨h1, ?_, h3, ?_, ?_⟩
  · intro p hp
    have := h2 p hp
    exact ⟨this.1, this.2⟩
  · intro a b hab
    rw [hab] at h4
    exact h4
  · intro a b hab
    rw [hab] at h5
    exact h5

/-- A successful `app3Generate` context carries the allowed-start cache
of its own subjects and slots. -/
theorem app3Generate_ok_inv {wds : List WorkingDay} {courses : List Course}
    {allowFree : Bool} {ctx : App3Ctx}
    (h : app3Generate wds courses allowFree = .ok ctx) :
    ctx.cache = allowedCache ctx.slots ctx.subjects := by
  simp only [app3Generate] at h
  split_ifs at h with h1 h2 h3 h4 <;>
    (revert h
     split
     · intro h
       exact absurd h (by simp)
     · intro h
       injection h with hctxeq
       subst hctxeq
       rfl)

/-- Membership in an `allowedStarts` list, unfolded. -/
theorem mem_allowedStarts {slots : List Slot} {sub : Subj} {s : Nat} :
    s ∈ allowedStarts slots sub ↔
    s < slots.length ∧ s + sub.duration - 1 < slots.length ∧
    (slots.getD s default).day = (slots.getD (s + sub.duration - 1) default).day ∧
    ∀ t ∈ List.range' s sub.duration,
      sub.start_hr ≤ (slots.getD t default).hour ∧
      (slots.getD t default).hour < sub.end_hr := by
  unfold allowedStarts
  simp only [List.mem_filter, List.mem_range, Bool.and_eq_true,
    List.all_eq_true, decide_eq_true_eq]
  tauto

/-- A dict lookup hit yields a member pair. -/
theorem dlookup_eq_some_mem {α β : Type} [DecidableEq α] {k : α}
    {m : List (α × β)} {v : β} (h : dlookup k m = some v) : (k, v) ∈ m := by
  unfold dlookup at h
  rcases hf : m.find? (fun p => p.1 = k) with _ | pr
  · rw [hf] at h
    simp at h
  · rw [hf] at h
    simp only [Option.map_some'] at h
    have h1 : pr.1 = k := by simpa using List.find?_some hf
    have h2 := List.mem_of_find?_eq_some hf
    have h3 : pr = (k, v) := by
      cases pr
      simp only [Option.some.injEq] at h
      simp_all
    rwa [← h3]

/-- The enum pair at a valid index. -/
theorem mem_enum_getD {α : Type} [Inhabited α] {l : List α} {i : Nat}
    (h : i < l.length) : (i, l.getD i default) ∈ l.enum := by
  apply List.mem_enum_iff_getElem?.mpr
  show l[i]? = some (l.getD i default)
  rw [List.getElem?_eq_getElem h, List.getD_eq_getElem?_getD,
    List.getElem?_eq_getElem h]
  rfl

/-- Membership in a zip, with the shared index. -/
theorem mem_zip_index {α β : Type} [Inhabited α] [Inhabited β] :
    ∀ (l₁ : List α) (l₂ : List β) (p : α × β), p ∈ l₁.zip l₂ →
      ∃ i, i < l₁.length ∧ i < l₂.length ∧
        l₁.getD i default = p.1 ∧ l₂.getD i default = p.2 := by
  intro l₁
  induction l₁ with
  | nil => intro l₂ p hp; simp at hp
  | cons a t₁ ih =>
    intro l₂ p hp
    cases l₂ with
    | nil => simp at hp
    | cons b t₂ =>
      rw [List.zip_cons_cons] at hp
      rcases List.mem_cons.mp hp with rfl | hp'
      · exact ⟨0, by simp, by simp, rfl, rfl⟩
      · rcases ih t₂ p hp' with ⟨i, h1, h2, h3, h4⟩
        exact ⟨i + 1, by simpa using h1, by simpa using h2, h3, h4⟩

/-- C3: in every success response of either engine, every scheduled
entry starts inside its subject's availability window: app2 checks each
assigned slot against `subject_info`, app3 restricts every occurrence
start so that all covered slots (the start slot in particular, for
positive durations) lie in the window of the cached subject bearing that
name. -/
theorem claim3_thm :
    (∀ (wds : List WorkingDay) (courses : List Course) (allowFree : Bool)
        (cons noncons : List String) (ctx : App2Ctx) (vals : List String),
      app2Generate wds courses allowFree = .ok ctx →
      app2Valid cons noncons ctx vals = true →
      ∀ i si, i < ctx.slots.length →
        dlookup (vals.getD i "") ctx.info = some si →
        si.start_hr ≤ (ctx.slots.getD i default).hour ∧
        (ctx.slots.getD i default).hour < si.end_hr) ∧
    (∀ (wds : List WorkingDay) (courses : List Course) (allowFree : Bool)
        (cons noncons : List String) (ctx : App3Ctx) (starts : List (List Nat)),
      app3Generate wds courses allowFree = .ok ctx →
      app3Feasible cons noncons ctx starts = true →
      ∀ p ∈ ctx.subjects.zip starts, ∀ st ∈ p.2,
        ∃ su ∈ ctx.subjects, su.sname = p.1.sname ∧
          st ∈ allowedStarts ctx.slots su ∧
          (∀ t ∈ List.range' st su.duration,
            su.start_hr ≤ (ctx.slots.getD t default).hour ∧
            (ctx.slots.getD t default).hour < su.end_hr) ∧
          (0 < su.duration →
            su.start_hr ≤ (ctx.slots.getD st default).hour ∧
            (ctx.slots.getD st default).hour < su.end_hr)) := by
  constructor
  · intro wds courses allowFree cons noncons ctx vals hgen hvalid i si hi hsi
    obtain ⟨hlen, -, -, -, hav, -, -⟩ := app2Valid_unpack hvalid
    have hpr : (vals.getD i "", si) ∈ ctx.info := dlookup_eq_some_mem hsi
    unfold teacher_availability_constraint at hav
    rw [List.all_eq_true] at hav
    have h2 := hav _ hpr
    rw [List.all_eq_true] at h2
    have hidx : i ∈ indicesOf (vals.getD i "") vals :=
      mem_indicesOf.mpr ⟨by omega, rfl⟩
    have h3 := h2 i hidx
    simp only [Bool.and_eq_true, decide_eq_true_eq] at h3
    exact h3
  · intro wds courses allowFree cons noncons ctx starts hgen hfeas p hp st hst
    obtain ⟨-, hdom, -, -, -⟩ := app3Feasible_unpack hfeas
    have hmem := (hdom p hp).2 st hst
    rw [app3Generate_ok_inv hgen, dlookup_allowedCache] at hmem
    rcases hf : ctx.subjects.reverse.find?
        (fun s => decide (s.sname = p.1.sname)) with _ | su
    · rw [hf] at hmem
      simp at hmem
    · rw [hf] at hmem
      simp only [Option.map_some', Option.getD_some] at hmem
      have hsu1 : su.sname = p.1.sname := by simpa using List.find?_some hf
      have hsu2 : su ∈ ctx.subjects :=
        List.mem_reverse.mp (List.mem_of_find?_eq_some hf)
      obtain ⟨-, -, -, hwin⟩ := mem_allowedStarts.mp hmem
      refine ⟨su, hsu2, hsu1, hmem, hwin, ?_⟩
      intro hdur
      exact hwin st (List.mem_range'_1.mpr ⟨le_refl st, by omega⟩)

/-- C3 witness: claim3_thm at a concrete 3-slot Monday with one course
available 9–17: the first assigned slot's hour lies in `[9, 17)`, and the
app3 occurrence starting at slot 0 is window-checked. -/
theorem claim3_witness :
    ((9 : Nat) ≤ ((app2Ok [⟨Day.monday, 9, 3⟩] [⟨"A", 3, 1, 9, 17⟩]
        true).slots.getD 0 default).hour ∧
      ((app2Ok [⟨Day.monday, 9, 3⟩] [⟨"A", 3, 1, 9, 17⟩]
        true).slots.getD 0 default).hour < 17) ∧
    (∃ su ∈ (app3Ok [⟨Day.monday, 9, 3⟩] [⟨"A", 3, 1, 9, 17⟩] true).subjects,
      su.sname = (⟨"A", 3, 1, 9, 17⟩ : Subj).sname ∧
      0 ∈ allowedStarts (app3Ok [⟨Day.monday, 9, 3⟩] [⟨"A", 3, 1, 9, 17⟩]
        true).slots su ∧
      (∀ t ∈ List.range' 0 su.duration,
        su.start_hr ≤ ((app3Ok [⟨Day.monday, 9, 3⟩] [⟨"A", 3, 1, 9, 17⟩]
          true).slots.getD t default).hour ∧
        ((app3Ok [⟨Day.monday, 9, 3⟩] [⟨"A", 3, 1, 9, 17⟩]
          true).slots.getD t default).hour < su.end_hr) ∧
      (0 < su.duration →
        su.start_hr ≤ ((app3Ok [⟨Day.monday, 9, 3⟩] [⟨"A", 3, 1, 9, 17⟩]
          true).slots.getD 0 default).hour ∧
        ((app3Ok [⟨Day.monday, 9, 3⟩] [⟨"A", 3, 1, 9, 17⟩]
          true).slots.getD 0 default).hour < su.end_hr)) :=
  ⟨claim3_thm.1 [⟨Day.monday, 9, 3⟩] [⟨"A", 3, 1, 9, 17⟩] true [] []
      (app2Ok [⟨Day.monday, 9, 3⟩] [⟨"A", 3, 1, 9, 17⟩] true)
      ["A", "A", "A"] rfl (by decide) 0 ⟨9, 17, 1⟩ (by decide) (by decide),
   claim3_thm.2 [⟨Day.monday, 9, 3⟩] [⟨"A", 3, 1, 9, 17⟩] true [] []
      (app3Ok [⟨Day.monday, 9, 3⟩] [⟨"A", 3, 1, 9, 17⟩] true)
      [[0, 1, 2]] rfl (by decide)
      (⟨"A", 3, 1, 9, 17⟩, [0, 1, 2]) (by decide) 0 (by decide)⟩

/-! ### Counting entries of the responses -/

theorem sum_day_length_flat {α γ : Type} (dayOf : γ → Day)
    (mk : α → γ → Entry) :
    ∀ (L : List (α × List γ)),
      (∑ d : Day, (L.flatMap (fun p => p.2.filterMap
        (fun x => if dayOf x = d then some (mk p.1 x) else none))).length) =
      (L.map (fun p => p.2.length)).sum := by
  intro L
  induction L with
  | nil => simp
  | cons p t ih =>
    simp only [List.flatMap_cons, List.length_append, List.map_cons,
      List.sum_cons]
    rw [Finset.sum_add_distrib, ih, sum_day_length dayOf (mk p.1)]

theorem sum_day_countP_flat {α γ : Type} (dayOf : γ → Day)
    (mk : α → γ → Entry) (q : Entry → Bool) :
    ∀ (L : List (α × List γ)),
      (∑ d : Day, ((L.flatMap (fun p => p.2.filterMap
        (fun x => if dayOf x = d then some (mk p.1 x) else none))).countP q)) =
      (L.map (fun p => p.2.countP (fun x => q (mk p.1 x)))).sum := by
  intro L
  induction L with
  | nil => simp
  | cons p t ih =>
    simp only [List.flatMap_cons, List.countP_append, List.map_cons,
      List.sum_cons]
    rw [Finset.sum_add_distrib, ih, sum_day_countP dayOf (mk p.1) q]

theorem countP_const {α : Type} (b : Bool) (l : List α) :
    l.countP (fun _ => b) = if b then l.length else 0 := by
  induction l with
  | nil => simp
  | cons a t ih =>
    rw [List.countP_cons, ih]
    cases b <;> simp [Nat.add_comm]

/-- app2's response has exactly `vals.count s` entries for subject `s`. -/
theorem respCount_app2 (slots : List Slot) (vals : List String) (s : String)
    (hlen : vals.length = slots.length) :
    respCount s (app2Response slots vals) = vals.count s := by
  unfold respCount
  have hperm : ∀ d : Day, (app2Response slots vals d).countP
      (fun e => decide (e.subject = s)) =
      (app2RespUnsorted slots vals d).countP (fun e => decide (e.subject = s)) :=
    fun d => (List.perm_insertionSort entryRel
      (app2RespUnsorted slots vals d)).countP_eq _
  rw [Finset.sum_congr rfl (fun d _ => hperm d)]
  have h1 : (∑ d : Day, (app2RespUnsorted slots vals d).countP
      (fun e => decide (e.subject = s))) =
      (slots.zip vals).countP (fun x => decide (x.2 = s)) :=
    sum_day_countP (fun p : Slot × String => p.1.day)
      (fun p => ⟨p.1.sname, p.2, fmtTime p.1.hour, fmtTime (p.1.hour + 1)⟩)
      (fun e => decide (e.subject = s)) (slots.zip vals)
  rw [h1, countP_zip_snd (fun v => decide (v = s)) slots vals hlen.symm,
    List.count_eq_countP]
  apply List.countP_congr
  intro a _
  rw [string_beq_eq_decide]

/-- app2's response has one entry per slot in total. -/
theorem respTotal_app2 (slots : List Slot) (vals : List String)
    (hlen : vals.length = slots.length) :
    respTotal (app2Response slots vals) = slots.length := by
  unfold respTotal
  have hperm : ∀ d : Day, (app2Response slots vals d).length =
      (app2RespUnsorted slots vals d).length :=
    fun d => (List.perm_insertionSort entryRel
      (app2RespUnsorted slots vals d)).length_eq
  rw [Finset.sum_congr rfl (fun d _ => hperm d)]
  have h1 : (∑ d : Day, (app2RespUnsorted slots vals d).length) =
      (slots.zip vals).length :=
    sum_day_length (fun p : Slot × String => p.1.day)
      (fun p => ⟨p.1.sname, p.2, fmtTime p.1.hour, fmtTime (p.1.hour + 1)⟩)
      (slots.zip vals)
  rw [h1, List.length_zip, hlen, Nat.min_self]

/-- app3's response has one entry per occurrence of subject `s`. -/
theorem respCount_app3 (slots : List Slot) (subjects : List Subj)
    (starts : List (List Nat)) (s : String)
    (hlen : starts.length = subjects.length)
    (hlect : ∀ p ∈ subjects.zip starts, p.2.length = p.1.lectures) :
    respCount s (app3Response slots subjects starts) =
    (subjects.map (fun su => if su.sname = s then su.lectures else 0)).sum := by
  unfold respCount
  have hperm : ∀ d : Day, (app3Response slots subjects starts d).countP
      (fun e => decide (e.subject = s)) =
      (app3RespUnsorted slots subjects starts d).countP
      (fun e => decide (e.subject = s)) :=
    fun d => (List.perm_insertionSort entryRel
      (app3RespUnsorted slots subjects starts d)).countP_eq _
  rw [Finset.sum_congr rfl (fun d _ => hperm d)]
  unfold app3RespUnsorted
  have h1 := sum_day_countP_flat (fun st => (slots.getD st default).day)
    (fun su st => (⟨(slots.getD st default).sname, su.sname,
      fmtTime (slots.getD st default).hour,
      fmtTime ((slots.getD st default).hour + su.duration)⟩ : Entry))
    (fun e => decide (e.subject = s)) (subjects.zip starts)
  rw [h1]
  have h2 : ((subjects.zip starts).map
      (fun p => p.2.countP (fun _ => decide (p.1.sname = s)))).sum =
      ((subjects.zip starts).map
        (fun p => if p.1.sname = s then p.1.lectures else 0)).sum := by
    congr 1
    apply List.map_congr_left
    intro p hp
    rw [countP_const, hlect p hp]
    by_cases hs : p.1.sname = s <;> simp [hs]
  rw [h2]
  have h3 : (subjects.zip starts).map
      (fun p => if p.1.sname = s then p.1.lectures else 0) =
      subjects.map (fun su => if su.sname = s then su.lectures else 0) := by
    have h4 : (subjects.zip starts).map
        (fun p => if p.1.sname = s then p.1.lectures else 0) =
        ((subjects.zip starts).map Prod.fst).map
          (fun su => if su.sname = s then su.lectures else 0) := by
      rw [List.map_map]
      rfl
    rw [h4, List.map_fst_zip subjects starts (le_of_eq hlen.symm)]
  rw [h3]

/-- app3's response has one entry per occurrence in total. -/
theorem respTotal_app3 (slots : List Slot) (subjects : List Subj)
    (starts : List (List Nat))
    (hlen : starts.length = subjects.length)
    (hlect : ∀ p ∈ subjects.zip starts, p.2.length = p.1.lectures) :
    respTotal (app3Response slots subjects starts) =
    (subjects.map (fun su => su.lectures)).sum := by
  unfold respTotal
  have hperm : ∀ d : Day, (app3Response slots subjects starts d).length =
      (app3RespUnsorted slots subjects starts d).length :=
    fun d => (List.perm_insertionSort entryRel
      (app3RespUnsorted slots subjects starts d)).length_eq
  rw [Finset.sum_congr rfl (fun d _ => hperm d)]
  unfold app3RespUnsorted
  have h1 := sum_day_length_flat (fun st => (slots.getD st default).day)
    (fun su st => (⟨(slots.getD st default).sname, su.sname,
      fmtTime (slots.getD st default).hour,
      fmtTime ((slots.getD st default).hour + su.duration)⟩ : Entry))
    (subjects.zip starts)
  rw [h1]
  have h2 : ((subjects.zip starts).map (fun p => p.2.length)).sum =
      ((subjects.zip starts).map (fun p => p.1.lectures)).sum := by
    congr 1
    exact List.map_congr_left hlect
  rw [h2]
  have h3 : (subjects.zip starts).map (fun p => p.1.lectures) =
      subjects.map (fun su => su.lectures) := by
    have h4 : (subjects.zip starts).map (fun p => p.1.lectures) =
        ((subjects.zip starts).map Prod.fst).map (fun su => su.lectures) := by
      rw [List.map_map]
      rfl
    rw [h4, List.map_fst_zip subjects starts (le_of_eq hlen.symm)]
  rw [h3]

/-- C1 counterexample: app3's assembler emits one entry per OCCURRENCE,
not per occupied slot.  With one course of 1 lecture x 2 slots on a
2-slot Monday (a feasible model: occurrence start 0), the success
response holds 1 entry in total over the seven days, although the
subject's `required_slots` is 2 and 2 slots were generated. -/
theorem claim1_counterexample :
    (app3Generate [⟨Day.monday, 9, 2⟩] [⟨"A", 1, 2, 9, 17⟩] true).isOk = true ∧
    app3Feasible [] []
      (app3Ok [⟨Day.monday, 9, 2⟩] [⟨"A", 1, 2, 9, 17⟩] true) [[0]] = true ∧
    respCount "A" (app3Response
      (app3Ok [⟨Day.monday, 9, 2⟩] [⟨"A", 1, 2, 9, 17⟩] true).slots
      (app3Ok [⟨Day.monday, 9, 2⟩] [⟨"A", 1, 2, 9, 17⟩] true).subjects
      [[0]]) = 1 ∧
    respTotal (app3Response
      (app3Ok [⟨Day.monday, 9, 2⟩] [⟨"A", 1, 2, 9, 17⟩] true).slots
      (app3Ok [⟨Day.monday, 9, 2⟩] [⟨"A", 1, 2, 9, 17⟩] true).subjects
      [[0]]) = 1 ∧
    (app3Ok [⟨Day.monday, 9, 2⟩] [⟨"A", 1, 2, 9, 17⟩] true).slots.length = 2 ∧
    (⟨"A", 1, 2, 9, 17⟩ : Course).lectureno *
      (⟨"A", 1, 2, 9, 17⟩ : Course).duration = 2 ∧
    (1 : Nat) ≠ 2 := by
  refine ⟨?_, ?_, ?_, ?_, ?_, ?_, ?_⟩ <;> decide

/-- C1 (amended): in app2, every success response carries per-subject
entry counts equal to `required_slots` and one entry per generated slot
in total; in app3, every success response carries one entry per lecture
OCCURRENCE: the count for a name is the sum of `lectures` over the
subjects bearing it and the total is the sum of all `lectures` (which
matches `required_slots` only for single-slot subjects). -/
theorem claim1_thm :
    (∀ (wds : List WorkingDay) (courses : List Course) (allowFree : Bool)
        (cons noncons : List String) (ctx : App2Ctx) (vals : List String),
      app2Generate wds courses allowFree = .ok ctx →
      app2Valid cons noncons ctx vals = true →
      (∀ s req, dlookup s ctx.required = some req →
        respCount s (app2Response ctx.slots vals) = req) ∧
      respTotal (app2Response ctx.slots vals) = ctx.slots.length) ∧
    (∀ (wds : List WorkingDay) (courses : List Course) (allowFree : Bool)
        (cons noncons : List String) (ctx : App3Ctx) (starts : List (List Nat)),
      app3Generate wds courses allowFree = .ok ctx →
      app3Feasible cons noncons ctx starts = true →
      (∀ s, respCount s (app3Response ctx.slots ctx.subjects starts) =
        (ctx.subjects.map
          (fun su => if su.sname = s then su.lectures else 0)).sum) ∧
      respTotal (app3Response ctx.slots ctx.subjects starts) =
        (ctx.subjects.map (fun su => su.lectures)).sum) := by
  constructor
  · intro wds courses allowFree cons noncons ctx vals hgen hvalid
    obtain ⟨hlen, -, hcount, -, -, -, -⟩ := app2Valid_unpack hvalid
    constructor
    · intro s req hs
      rw [respCount_app2 ctx.slots vals s hlen]
      have hpr : (s, req) ∈ ctx.required := dlookup_eq_some_mem hs
      unfold every_subject_constraint at hcount
      rw [List.all_eq_true] at hcount
      have := hcount _ hpr
      simpa using this
    · exact respTotal_app2 ctx.slots vals hlen
  · intro wds courses allowFree cons noncons ctx starts hgen hfeas
    obtain ⟨hlen, hdom, -, -, -⟩ := app3Feasible_unpack hfeas
    have hlect : ∀ p ∈ ctx.subjects.zip starts, p.2.length = p.1.lectures :=
      fun p hp => (hdom p hp).1
    exact ⟨fun s => respCount_app3 ctx.slots ctx.subjects starts s hlen hlect,
      respTotal_app3 ctx.slots ctx.subjects starts hlen hlect⟩

/-- C1 witness: the amended theorem at a concrete input for both
engines. -/
theorem claim1_witness :
    respCount "A" (app2Response
      (app2Ok [⟨Day.monday, 9, 3⟩] [⟨"A", 3, 1, 9, 17⟩] true).slots
      ["A", "A", "A"]) = 3 ∧
    respTotal (app2Response
      (app2Ok [⟨Day.monday, 9, 3⟩] [⟨"A", 3, 1, 9, 17⟩] true).slots
      ["A", "A", "A"]) =
      (app2Ok [⟨Day.monday, 9, 3⟩] [⟨"A", 3, 1, 9, 17⟩] true).slots.length ∧
    respTotal (app3Response
      (app3Ok [⟨Day.monday, 9, 3⟩] [⟨"A", 3, 1, 9, 17⟩] true).slots
      (app3Ok [⟨Day.monday, 9, 3⟩] [⟨"A", 3, 1, 9, 17⟩] true).subjects
      [[0, 1, 2]]) =
      ((app3Ok [⟨Day.monday, 9, 3⟩] [⟨"A", 3, 1, 9, 17⟩]
        true).subjects.map (fun su => su.lectures)).sum :=
  ⟨(claim1_thm.1 [⟨Day.monday, 9, 3⟩] [⟨"A", 3, 1, 9, 17⟩] true [] []
      (app2Ok [⟨Day.monday, 9, 3⟩] [⟨"A", 3, 1, 9, 17⟩] true)
      ["A", "A", "A"] rfl (by decide)).1 "A" 3 (by decide),
   (claim1_thm.1 [⟨Day.monday, 9, 3⟩] [⟨"A", 3, 1, 9, 17⟩] true [] []
      (app2Ok [⟨Day.monday, 9, 3⟩] [⟨"A", 3, 1, 9, 17⟩] true)
      ["A", "A", "A"] rfl (by decide)).2,
   (claim1_thm.2 [⟨Day.monday, 9, 3⟩] [⟨"A", 3, 1, 9, 17⟩] true [] []
      (app3Ok [⟨Day.monday, 9, 3⟩] [⟨"A", 3, 1, 9, 17⟩] true)
      [[0, 1, 2]] rfl (by decide)).2⟩

/-- C9 counterexample: app2's assembler always writes
`end_time = start_hr + 1`, not `start_hr + duration_slots`.  For a
2-slot Monday with one course of 1 lecture x 2 slots, the engine's
success response lists the first entry as 09:00–10:00 although the
subject's duration is 2 (the claim demands 09:00–11:00). -/
theorem claim9_counterexample :
    runDay (app2Run [⟨Day.monday, 9, 2⟩] [] [] [⟨"A", 1, 2, 9, 17⟩] true)
      Day.monday =
      [⟨"M1", "A", "09:00", "10:00"⟩, ⟨"M2", "A", "10:00", "11:00"⟩] ∧
    dlookup "A" (infoMap [⟨"A", 1, 2, 9, 17⟩]) = some ⟨9, 17, 2⟩ ∧
    fmtTime (9 + 2) = "11:00" ∧ ("10:00" : String) ≠ "11:00" := by
  refine ⟨?_, by decide, by decide, by decide⟩
  have h1 : entryRel ⟨"M1", "A", "09:00", "10:00"⟩
      ⟨"M2", "A", "10:00", "11:00"⟩ := by
    show ("09:00" : String) ≤ "10:00"
    rw [String.le_iff_toList_le]
    decide
  have h2 : runDay (app2Run [⟨Day.monday, 9, 2⟩] [] [] [⟨"A", 1, 2, 9, 17⟩]
        true) Day.monday =
      List.insertionSort entryRel
        [⟨"M1", "A", "09:00", "10:00"⟩, ⟨"M2", "A", "10:00", "11:00"⟩] := rfl
  rw [h2]
  simp only [List.insertionSort, List.orderedInsert, if_pos h1]

/-- C9 (amended): within every success response, each day's list is
sorted by `start_time` and is a permutation of the entries generated in
slot (resp. occurrence) order; app2 emits one entry per occupied slot
with `end_time = start_hr + 1` (regardless of the subject's duration),
while app3 emits one entry per OCCURRENCE with
`end_time = start_hr + duration`. -/
theorem claim9_thm :
    (∀ (wds : List WorkingDay) (courses : List Course) (allowFree : Bool)
        (cons noncons : List String) (ctx : App2Ctx) (vals : List String),
      app2Generate wds courses allowFree = .ok ctx →
      app2Valid cons noncons ctx vals = true →
      ∀ d : Day,
        (app2Response ctx.slots vals d).Sorted entryRel ∧
        (app2Response ctx.slots vals d).Perm (app2RespUnsorted ctx.slots vals d) ∧
        (∀ e ∈ app2Response ctx.slots vals d, ∃ i, i < ctx.slots.length ∧
          (ctx.slots.getD i default).day = d ∧
          e = ⟨(ctx.slots.getD i default).sname, vals.getD i "",
               fmtTime (ctx.slots.getD i default).hour,
               fmtTime ((ctx.slots.getD i default).hour + 1)⟩)) ∧
    (∀ (wds : List WorkingDay) (courses : List Course) (allowFree : Bool)
        (cons noncons : List String) (ctx : App3Ctx) (starts : List (List Nat)),
      app3Generate wds courses allowFree = .ok ctx →
      app3Feasible cons noncons ctx starts = true →
      ∀ d : Day,
        (app3Response ctx.slots ctx.subjects starts d).Sorted entryRel ∧
        (app3Response ctx.slots ctx.subjects starts d).Perm
          (app3RespUnsorted ctx.slots ctx.subjects starts d) ∧
        (∀ e ∈ app3Response ctx.slots ctx.subjects starts d,
          ∃ p ∈ ctx.subjects.zip starts, ∃ st ∈ p.2,
            (ctx.slots.getD st default).day = d ∧
            e = ⟨(ctx.slots.getD st default).sname, p.1.sname,
                 fmtTime (ctx.slots.getD st default).hour,
                 fmtTime ((ctx.slots.getD st default).hour + p.1.duration)⟩)) := by
  constructor
  · intro wds courses allowFree cons noncons ctx vals hgen hvalid d
    refine ⟨List.sorted_insertionSort entryRel _,
      List.perm_insertionSort entryRel _, ?_⟩
    intro e he
    have he2 : e ∈ app2RespUnsorted ctx.slots vals d :=
      (List.perm_insertionSort entryRel _).mem_iff.mp he
    unfold app2RespUnsorted at he2
    rcases List.mem_filterMap.mp he2 with ⟨p, hp, hpe⟩
    by_cases hd : p.1.day = d
    · rw [if_pos hd] at hpe
      rcases mem_zip_index ctx.slots vals p hp with ⟨i, hi1, _, hi3, hi4⟩
      have hi4s : vals.getD i "" = p.2 := hi4
      refine ⟨i, hi1, by rw [hi3]; exact hd, ?_⟩
      rw [hi3, hi4s]
      exact (Option.some.injEq _ _).mp hpe |>.symm
    · rw [if_neg hd] at hpe
      exact absurd hpe (by simp)
  · intro wds courses allowFree cons noncons ctx starts hgen hfeas d
    refine ⟨List.sorted_insertionSort entryRel _,
      List.perm_insertionSort entryRel _, ?_⟩
    intro e he
    have he2 : e ∈ app3RespUnsorted ctx.slots ctx.subjects starts d :=
      (List.perm_insertionSort entryRel _).mem_iff.mp he
    unfold app3RespUnsorted at he2
    rcases List.mem_flatMap.mp he2 with ⟨p, hp, hpe⟩
    rcases List.mem_filterMap.mp hpe with ⟨st, hst, hste⟩
    by_cases hd : (ctx.slots.getD st default).day = d
    · rw [if_pos hd] at hste
      refine ⟨p, hp, st, hst, hd, ?_⟩
      exact ((Option.some.injEq _ _).mp hste).symm
    · rw [if_neg hd] at hste
      exact absurd hste (by simp)

/-- C9 witness: the amended theorem at a concrete 2-slot Monday with a
duration-2 course: the Monday list is sorted and every entry comes from
an occupied slot with `end_time = start + 1`. -/
theorem claim9_witness :
    (app2Response (app2Ok [⟨Day.monday, 9, 2⟩] [⟨"A", 1, 2, 9, 17⟩] true).slots
      ["A", "A"] Day.monday).Sorted entryRel ∧
    (∀ e ∈ app2Response
        (app2Ok [⟨Day.monday, 9, 2⟩] [⟨"A", 1, 2, 9, 17⟩] true).slots
        ["A", "A"] Day.monday,
      ∃ i, i < (app2Ok [⟨Day.monday, 9, 2⟩] [⟨"A", 1, 2, 9, 17⟩]
          true).slots.length ∧
        ((app2Ok [⟨Day.monday, 9, 2⟩] [⟨"A", 1, 2, 9, 17⟩]
          true).slots.getD i default).day = Day.monday ∧
        e = ⟨((app2Ok [⟨Day.monday, 9, 2⟩] [⟨"A", 1, 2, 9, 17⟩]
                true).slots.getD i default).sname,
             (["A", "A"] : List String).getD i "",
             fmtTime ((app2Ok [⟨Day.monday, 9, 2⟩] [⟨"A", 1, 2, 9, 17⟩]
                true).slots.getD i default).hour,
             fmtTime (((app2Ok [⟨Day.monday, 9, 2⟩] [⟨"A", 1, 2, 9, 17⟩]
                true).slots.getD i default).hour + 1)⟩) :=
  ⟨(claim9_thm.1 [⟨Day.monday, 9, 2⟩] [⟨"A", 1, 2, 9, 17⟩] true [] []
      (app2Ok [⟨Day.monday, 9, 2⟩] [⟨"A", 1, 2, 9, 17⟩] true)
      ["A", "A"] rfl (by decide) Day.monday).1,
   (claim9_thm.1 [⟨Day.monday, 9, 2⟩] [⟨"A", 1, 2, 9, 17⟩] true [] []
      (app2Ok [⟨Day.monday, 9, 2⟩] [⟨"A", 1, 2, 9, 17⟩] true)
      ["A", "A"] rfl (by decide) Day.monday).2.2⟩

/-- C2 counterexample: app3 does not bound MAXIMAL runs by the duration.
On a 4-slot Monday, one course of 2 lectures x 2 slots may be solved with
occurrence starts 0 and 2 (a feasible model): the subject's occupied
indices form the single maximal run `[0, 1, 2, 3]` of length 4, not the
`duration_slots = 2` the claim demands. -/
theorem claim2_counterexample :
    (app3Generate [⟨Day.monday, 9, 4⟩] [⟨"A", 2, 2, 9, 17⟩] true).isOk = true ∧
    app3Feasible [] []
      (app3Ok [⟨Day.monday, 9, 4⟩] [⟨"A", 2, 2, 9, 17⟩] true)
      [[0, 2]] = true ∧
    chunkRuns (subjectIndices3 "A"
      (occList (app3Ok [⟨Day.monday, 9, 4⟩] [⟨"A", 2, 2, 9, 17⟩]
        true).subjects [[0, 2]])) = [[0, 1, 2, 3]] ∧
    (⟨"A", 2, 2, 9, 17⟩ : Course).duration = 2 ∧
    ([0, 1, 2, 3] : List Nat).length ≠ 2 := by
  refine ⟨by decide, by decide, by decide, by decide, by decide⟩

/-- C2 (amended): in app2, every success response chunks each multi-slot
subject's occurrence indices into MAXIMAL consecutive runs (adjacent runs
are separated by a gap) of length exactly `duration_slots`, each run on a
single day.  In app3, each individual OCCURRENCE occupies a contiguous
block of `duration` slots whose endpoints lie on one day and the blocks of
distinct occurrences never overlap, but two blocks of the same subject may
abut, so a maximal run may be longer than `duration_slots`. -/
theorem claim2_thm :
    (∀ (wds : List WorkingDay) (courses : List Course) (allowFree : Bool)
        (cons noncons : List String) (ctx : App2Ctx) (vals : List String),
      app2Generate wds courses allowFree = .ok ctx →
      app2Valid cons noncons ctx vals = true →
      ∀ nm dur, dlookup nm ctx.multi = some dur →
        indicesOf nm vals ≠ [] ∧
        (chunkRuns (indicesOf nm vals)).flatten = indicesOf nm vals ∧
        (chunkRuns (indicesOf nm vals)).Chain'
          (fun r s => r.getLastD 0 + 1 < s.headD 0) ∧
        ∀ run ∈ chunkRuns (indicesOf nm vals),
          run ≠ [] ∧ run.Chain' (fun a b => b = a + 1) ∧
          run.length = dur ∧
          ∀ j ∈ run, (ctx.slots.getD (run.headD 0) default).day =
            (ctx.slots.getD j default).day) ∧
    (∀ (wds : List WorkingDay) (courses : List Course) (allowFree : Bool)
        (cons noncons : List String) (ctx : App3Ctx) (starts : List (List Nat)),
      app3Generate wds courses allowFree = .ok ctx →
      app3Feasible cons noncons ctx starts = true →
      (∀ p ∈ ctx.subjects.zip starts, ∀ st ∈ p.2,
        ∃ su ∈ ctx.subjects, su.sname = p.1.sname ∧
          st + su.duration - 1 < ctx.slots.length ∧
          (ctx.slots.getD st default).day =
            (ctx.slots.getD (st + su.duration - 1) default).day) ∧
      (∀ i j, i < (occList ctx.subjects starts).length →
        j < (occList ctx.subjects starts).length → i ≠ j →
        ((occList ctx.subjects starts).getD i default).start +
          ((occList ctx.subjects starts).getD i default).dur ≤
          ((occList ctx.subjects starts).getD j default).start ∨
        ((occList ctx.subjects starts).getD j default).start +
          ((occList ctx.subjects starts).getD j default).dur ≤
          ((occList ctx.subjects starts).getD i default).start)) := by
  constructor
  · intro wds courses allowFree cons noncons ctx vals hgen hvalid nm dur hnm
    obtain ⟨-, -, -, hms, -, -, -⟩ := app2Valid_unpack hvalid
    have hpr : (nm, dur) ∈ ctx.multi := dlookup_eq_some_mem hnm
    unfold multi_slot_constraint at hms
    rw [List.all_eq_true] at hms
    have h2 := hms _ hpr
    simp only [Bool.and_eq_true, List.all_eq_true] at h2
    obtain ⟨h2a, h2b⟩ := h2
    have hne : indicesOf nm vals ≠ [] := by
      intro hnil
      rw [hnil] at h2a
      simp at h2a
    refine ⟨hne, chunkRuns_flatten _,
      chunkRuns_gap _ (indicesOf_chain nm vals), ?_⟩
    intro run hrun
    obtain ⟨h3a, h3b⟩ := h2b run hrun
    refine ⟨chunkRuns_ne_nil _ run hrun, chunkRuns_chain _ run hrun,
      by simpa using h3a, ?_⟩
    intro j hj
    unfold sameDayRun at h3b
    rw [List.all_eq_true] at h3b
    have h4 := h3b j hj
    simpa using h4
  · intro wds courses allowFree cons noncons ctx starts hgen hfeas
    obtain ⟨-, hdom, hno, -, -⟩ := app3Feasible_unpack hfeas
    constructor
    · intro p hp st hst
      have hmem := (hdom p hp).2 st hst
      rw [app3Generate_ok_inv hgen, dlookup_allowedCache] at hmem
      rcases hf : ctx.subjects.reverse.find?
          (fun s => decide (s.sname = p.1.sname)) with _ | su
      · rw [hf] at hmem
        simp at hmem
      · rw [hf] at hmem
        simp only [Option.map_some', Option.getD_some] at hmem
        have hsu1 : su.sname = p.1.sname := by simpa using List.find?_some hf
        have hsu2 : su ∈ ctx.subjects :=
          List.mem_reverse.mp (List.mem_of_find?_eq_some hf)
        obtain ⟨-, hb, hd, -⟩ := mem_allowedStarts.mp hmem
        exact ⟨su, hsu2, hsu1, hb, hd⟩
    · intro i j hi hj hij
      unfold noOverlapOK at hno
      rw [List.all_eq_true] at hno
      have h1 := hno _ (mem_enum_getD hi)
      rw [List.all_eq_true] at h1
      have h2 := h1 _ (mem_enum_getD hj)
      simp only [Bool.or_eq_true, decide_eq_true_eq] at h2
      rcases h2 with (h2 | h2) | h2
      · exact absurd h2 hij
      · exact Or.inl h2
      · exact Or.inr h2

/-- C2 witness: the amended theorem at concrete inputs — app2 with one
1-lecture x 2-slot course on a 2-slot Monday (runs of length exactly 2 on
one day), app3 at the fused-run scenario (each occurrence's endpoints
share a day). -/
theorem claim2_witness :
    (indicesOf "A" ["A", "A"] ≠ [] ∧
     (chunkRuns (indicesOf "A" ["A", "A"])).flatten =
       indicesOf "A" ["A", "A"] ∧
     (chunkRuns (indicesOf "A" ["A", "A"])).Chain'
       (fun r s => r.getLastD 0 + 1 < s.headD 0) ∧
     ∀ run ∈ chunkRuns (indicesOf "A" ["A", "A"]),
       run ≠ [] ∧ run.Chain' (fun a b => b = a + 1) ∧
       run.length = 2 ∧
       ∀ j ∈ run,
         ((app2Ok [⟨Day.monday, 9, 2⟩] [⟨"A", 1, 2, 9, 17⟩]
            true).slots.getD (run.headD 0) default).day =
         ((app2Ok [⟨Day.monday, 9, 2⟩] [⟨"A", 1, 2, 9, 17⟩]
            true).slots.getD j default).day) ∧
    (∃ su ∈ (app3Ok [⟨Day.monday, 9, 4⟩] [⟨"A", 2, 2, 9, 17⟩]
        true).subjects,
      su.sname = (⟨"A", 2, 2, 9, 17⟩ : Subj).sname ∧
      0 + su.duration - 1 <
        (app3Ok [⟨Day.monday, 9, 4⟩] [⟨"A", 2, 2, 9, 17⟩]
          true).slots.length ∧
      ((app3Ok [⟨Day.monday, 9, 4⟩] [⟨"A", 2, 2, 9, 17⟩]
          true).slots.getD 0 default).day =
        ((app3Ok [⟨Day.monday, 9, 4⟩] [⟨"A", 2, 2, 9, 17⟩]
          true).slots.getD (0 + su.duration - 1) default).day) :=
  ⟨claim2_thm.1 [⟨Day.monday, 9, 2⟩] [⟨"A", 1, 2, 9, 17⟩] true [] []
      (app2Ok [⟨Day.monday, 9, 2⟩] [⟨"A", 1, 2, 9, 17⟩] true)
      ["A", "A"] rfl (by decide) "A" 2 (by decide),
   (claim2_thm.2 [⟨Day.monday, 9, 4⟩] [⟨"A", 2, 2, 9, 17⟩] true [] []
      (app3Ok [⟨Day.monday, 9, 4⟩] [⟨"A", 2, 2, 9, 17⟩] true)
      [[0, 2]] rfl (by decide)).1
      (⟨"A", 2, 2, 9, 17⟩, [0, 2]) (by decide) 0 (by decide)⟩

/-- Unfolded form of `adjOK`: every occurrence of `a` has `b` at index
`-1` or `+1`. -/
theorem adjOK_unpack {a b : String} {vals : List String}
    (h : adjOK a b vals = true) :
    ∀ i, i < vals.length → vals.getD i "" = a →
      (0 < i ∧ vals.getD (i - 1) "" = b) ∨
      (i + 1 < vals.length ∧ vals.getD (i + 1) "" = b) := by
  intro i hi hv
  unfold adjOK at h
  rw [List.all_eq_true] at h
  have h2 := h _ (mem_enum_getD hi)
  simp only [Bool.or_eq_true, Bool.and_eq_true, Bool.not_eq_true',
    decide_eq_true_eq, decide_eq_false_iff_not] at h2
  rcases h2 with h2 | h2
  · exact absurd hv h2
  · exact h2

/-- Unfolded form of `consOK3` when both sides occur: every occurrence of
`A` has an occurrence of `B` starting where it ends or ending where it
starts. -/
theorem consOK3_unpack {A B : String} {occs : List Occ}
    (h : consOK3 A B occs = true)
    (hA : occs.filter (fun o => decide (o.oname = A)) ≠ [])
    (hB : occs.filter (fun o => decide (o.oname = B)) ≠ []) :
    ∀ o ∈ occs, o.oname = A → ∃ ob ∈ occs, ob.oname = B ∧
      (o.start + o.dur = ob.start ∨ ob.start + ob.dur = o.start) := by
  intro o ho hoA
  unfold consOK3 at h
  simp only [Bool.or_eq_true, List.all_eq_true, List.any_eq_true,
    Bool.and_eq_true, decide_eq_true_eq, List.isEmpty_iff] at h
  rcases h with (h | h) | h
  · exact absurd h hA
  · exact absurd h hB
  · have hmem : o ∈ occs.filter (fun x => decide (x.oname = A)) :=
      List.mem_filter.mpr ⟨ho, by simpa using hoA⟩
    rcases h o hmem with ⟨ob, hob, hadj⟩
    have hob2 := List.mem_filter.mp hob
    exact ⟨ob, hob2.1, by simpa using hob2.2, hadj⟩

/-- C4 counterexample: app3's consecutive-pair constraint only binds the
`A` side.  With `consecutive = (A, B)` on a 4-slot Monday, `A` 1 x 1 and
`B` 3 x 1 may be solved as A@0, B@1, B@2, B@3 (a feasible model): the
`B` occurrence at slot 2 has no occurrence of `A` at an adjacent index,
so the symmetric direction claimed by the spec is violated. -/
theorem claim4_counterexample :
    (app3Generate [⟨Day.monday, 9, 4⟩]
      [⟨"A", 1, 1, 9, 17⟩, ⟨"B", 3, 1, 9, 17⟩] true).isOk = true ∧
    app3Feasible ["A", "B"] []
      (app3Ok [⟨Day.monday, 9, 4⟩]
        [⟨"A", 1, 1, 9, 17⟩, ⟨"B", 3, 1, 9, 17⟩] true)
      [[0], [1, 2, 3]] = true ∧
    pairActive ["A", "B"] = some ("A", "B") ∧
    (⟨"B", 2, 1⟩ : Occ) ∈ occList
      (app3Ok [⟨Day.monday, 9, 4⟩]
        [⟨"A", 1, 1, 9, 17⟩, ⟨"B", 3, 1, 9, 17⟩] true).subjects
      [[0], [1, 2, 3]] ∧
    (∀ o ∈ occList
        (app3Ok [⟨Day.monday, 9, 4⟩]
          [⟨"A", 1, 1, 9, 17⟩, ⟨"B", 3, 1, 9, 17⟩] true).subjects
        [[0], [1, 2, 3]],
      o.oname = "A" → ¬(2 + 1 = o.start ∨ o.start + o.dur = 2)) ∧
    consOK3 "B" "A" (occList
      (app3Ok [⟨Day.monday, 9, 4⟩]
        [⟨"A", 1, 1, 9, 17⟩, ⟨"B", 3, 1, 9, 17⟩] true).subjects
      [[0], [1, 2, 3]]) = false := by
  refine ⟨by decide, by decide, by decide, by decide, by decide, by decide⟩

/-- C4 (amended): app2 enforces the consecutive pair in BOTH directions
(every occurrence of `a` has `b` adjacent and every occurrence of `b` has
`a` adjacent); app3 only constrains the `A` side: when both subjects
occur, every occurrence of `a` has an occurrence of `b` starting where it
ends or ending where it starts, with no constraint on `b`'s occurrences. -/
theorem claim4_thm :
    (∀ (wds : List WorkingDay) (courses : List Course) (allowFree : Bool)
        (a b : String) (rest noncons : List String) (ctx : App2Ctx)
        (vals : List String),
      app2Generate wds courses allowFree = .ok ctx →
      app2Valid (a :: b :: rest) noncons ctx vals = true →
      a ≠ "" → a ≠ b →
      (∀ i, i < vals.length → vals.getD i "" = a →
        (0 < i ∧ vals.getD (i - 1) "" = b) ∨
        (i + 1 < vals.length ∧ vals.getD (i + 1) "" = b)) ∧
      (∀ i, i < vals.length → vals.getD i "" = b →
        (0 < i ∧ vals.getD (i - 1) "" = a) ∨
        (i + 1 < vals.length ∧ vals.getD (i + 1) "" = a))) ∧
    (∀ (wds : List WorkingDay) (courses : List Course) (allowFree : Bool)
        (cons noncons : List String) (ctx : App3Ctx)
        (starts : List (List Nat)) (a b : String),
      app3Generate wds courses allowFree = .ok ctx →
      app3Feasible cons noncons ctx starts = true →
      pairActive cons = some (a, b) →
      (occList ctx.subjects starts).filter
        (fun o => decide (o.oname = a)) ≠ [] →
      (occList ctx.subjects starts).filter
        (fun o => decide (o.oname = b)) ≠ [] →
      ∀ o ∈ occList ctx.subjects starts, o.oname = a →
        ∃ ob ∈ occList ctx.subjects starts, ob.oname = b ∧
          (o.start + o.dur = ob.start ∨ ob.start + ob.dur = o.start)) := by
  constructor
  · intro wds courses allowFree a b rest noncons ctx vals hgen hvalid ha hab
    obtain ⟨-, -, -, -, -, hcons, -⟩ := app2Valid_unpack hvalid
    simp only [user_consecutive_pair_constraint] at hcons
    rw [if_neg ha, if_neg hab, Bool.and_eq_true] at hcons
    exact ⟨adjOK_unpack hcons.1, adjOK_unpack hcons.2⟩
  · intro wds courses allowFree cons noncons ctx starts a b hgen hfeas
      hpair hA hB
    obtain ⟨-, -, -, hc, -⟩ := app3Feasible_unpack hfeas
    exact consOK3_unpack (hc a b hpair) hA hB

/-- C4 witness: the amended theorem at concrete inputs — app2 on a 4-slot
Monday solved as A,B,A,B under `consecutive = (A, B)` (the first A has B
at index +1), and app3 at the counterexample scenario (the single A
occurrence does have a B occurrence starting where it ends). -/
theorem claim4_witness :
    (((0 : Nat) < 0 ∧ (["A", "B", "A", "B"] : List String).getD (0 - 1) "" =
        "B") ∨
      (0 + 1 < (["A", "B", "A", "B"] : List String).length ∧
        (["A", "B", "A", "B"] : List String).getD (0 + 1) "" = "B")) ∧
    (∃ ob ∈ occList
        (app3Ok [⟨Day.monday, 9, 4⟩]
          [⟨"A", 1, 1, 9, 17⟩, ⟨"B", 3, 1, 9, 17⟩] true).subjects
        [[0], [1, 2, 3]],
      ob.oname = "B" ∧
        ((0 : Nat) + 1 = ob.start ∨ ob.start + ob.dur = 0)) :=
  ⟨(claim4_thm.1 [⟨Day.monday, 9, 4⟩]
      [⟨"A", 2, 1, 9, 17⟩, ⟨"B", 2, 1, 9, 17⟩] true "A" "B" [] []
      (app2Ok [⟨Day.monday, 9, 4⟩]
        [⟨"A", 2, 1, 9, 17⟩, ⟨"B", 2, 1, 9, 17⟩] true)
      ["A", "B", "A", "B"] rfl (by decide) (by decide) (by decide)).1
      0 (by decide) (by decide),
   claim4_thm.2 [⟨Day.monday, 9, 4⟩]
      [⟨"A", 1, 1, 9, 17⟩, ⟨"B", 3, 1, 9, 17⟩] true ["A", "B"] []
      (app3Ok [⟨Day.monday, 9, 4⟩]
        [⟨"A", 1, 1, 9, 17⟩, ⟨"B", 3, 1, 9, 17⟩] true)
      [[0], [1, 2, 3]] "A" "B" rfl (by decide) rfl (by decide) (by decide)
      (⟨"A", 0, 1⟩ : Occ) (by decide) rfl⟩
